import Mathlib

/-!
Shallow embedding of the consumable-resources node-selection plugin
(`select_cons_res.c`) and the parts of its environment the claims need.

Modelling conventions:
* bitmaps (`bitstr_t`) are `Finset ℕ` holding the set bit positions; the
  allocated length of a bitmap is not tracked (all row/core bitmaps of one
  cluster share the length `Σ cores`), and a nullable bitmap is an
  `Option (Finset ℕ)`;
* the core map index is a list `cores : List ℕ` of per-node core counts,
  `cr_get_coremap_offset` is its prefix sum (the `cr_node_cores_offset`
  table);
* `bit_ffs`/`bit_fls` return the least/greatest set bit; the C versions
  return `-1` on an empty bitmap, the model totalises them with `0` and is
  only applied where the source guarantees a nonempty bitmap;
* machine integers are `Nat` (no arithmetic in the modelled paths can
  overflow 64 bits) and return codes are `Int`;
* functions of this repository that live outside the provided source file
  (`cons_common.c`, `job_resources.c`, `job_test.c`) are modelled from the
  spec; each such definition says so in its doc comment.
-/

namespace ConsRes

def SLURM_SUCCESS : Int := 0

def SLURM_ERROR : Int := -1

def NODE_CR_AVAILABLE : Nat := 0

/-- Prefix-sum of per-node core counts: global bit position of core 0 of
node `n` (the `cr_node_cores_offset` table consulted by
`cr_get_coremap_offset`). -/
def cr_get_coremap_offset (cores : List Nat) (n : Nat) : Nat :=
  ((cores.take n).sum)

/-- Least set bit of a bitmap (C `bit_ffs`; `0` stands for the C `-1` on an
empty bitmap, which the modelled paths never feed it). -/
def bit_ffs (s : Finset ℕ) : ℕ := s.min.getD 0

/-- Greatest set bit of a bitmap (C `bit_fls`). -/
def bit_fls (s : Finset ℕ) : ℕ := s.max.getD 0

/-- The elements of a finite set of naturals in ascending order (the order
in which C loops `for (i = bit_ffs(b); i <= bit_fls(b); i++)` visit the
set bits). -/
def finset_asc_list (s : Finset ℕ) : List ℕ :=
  (List.range (bit_fls s + 1)).filter (fun i => i ∈ s)

/-- The global bit positions of the cores of node `n`. -/
def node_core_positions (cores : List Nat) (n : Nat) : List ℕ :=
  (List.range (cores.getD n 0)).map (fun k => cr_get_coremap_offset cores n + k)

/-- All core positions of the cluster. -/
def all_cores (cores : List Nat) : Finset ℕ :=
  Finset.range (cr_get_coremap_offset cores cores.length)

/-- `struct job_resources` restricted to the fields the claims touch.  The
`core_bitmap` is packed: bit `k` of the concatenation of the selected
nodes' core ranges, exactly as in the source. -/
structure job_resources where
  node_bitmap : Finset ℕ
  core_bitmap : Finset ℕ
  ncpus : ℕ
  cpus : List ℕ
  memory_allocated : List ℕ
  node_req : ℕ
deriving DecidableEq

/-- Translate one packed core-bitmap position of a job to its global
position: walk the job's selected nodes in ascending order, peeling one
node-sized slice of the packed index space per node. -/
def packed_to_global_go (cores : List Nat) : List ℕ → ℕ → ℕ
  | [], p => p
  | n :: rest, p =>
    if p < cores.getD n 0 then cr_get_coremap_offset cores n + p
    else packed_to_global_go cores rest (p - cores.getD n 0)

/-- Modelled from the spec: the projection used by `add_job_to_cores` /
`job_fits_into_cores` (`job_resources.c`, not part of src/) — "the job's
per-node cores (a contiguous slice of its packed core_bitmap) are projected
to the global CMI position offset(n) + local_k". -/
def job_global_cores (cores : List Nat) (j : job_resources) : Finset ℕ :=
  j.core_bitmap.image (packed_to_global_go cores (finset_asc_list j.node_bitmap))

/-- `struct part_row_data` (row bitmaps are kept as the single
`first_row_bitmap` this plugin uses; `num_jobs` is the length of
`job_list`, the invariant the source maintains). -/
structure part_row_data where
  job_list : List job_resources
  first_row_bitmap : Option (Finset ℕ)
deriving DecidableEq

def part_row_data.num_jobs (r : part_row_data) : ℕ := r.job_list.length

/-- Modelled from the spec: `job_fits_into_cores` (`job_resources.c`, not
part of src/) decides whether the job's projected cores are disjoint from
the row bitmap. -/
def job_fits_into_cores (cores : List Nat) (j : job_resources)
    (row_bitmap : Finset ℕ) : Bool :=
  job_global_cores cores j ∩ row_bitmap = ∅

/-- `_can_job_fit_in_row`: an empty row (no jobs, or no row bitmap yet)
always fits; otherwise test for conflicting core_bitmap bits. -/
def can_job_fit_in_row (cores : List Nat) (j : job_resources)
    (r : part_row_data) : Bool :=
  if r.num_jobs = 0 ∨ r.first_row_bitmap = none then true
  else job_fits_into_cores cores j (r.first_row_bitmap.getD ∅)

/-- `struct sort_support`. -/
structure sort_support where
  jstart : ℕ
  tmpjobs : job_resources
deriving DecidableEq

/-- `_compare_support`: returns 1 when `s` must sort after `s1` — when its
`jstart` is larger, or the `jstart`s tie and its `ncpus` is larger — and 0
otherwise. -/
def compare_support (s s1 : sort_support) : Int :=
  if s.jstart > s1.jstart ∨
     (s.jstart = s1.jstart ∧ s.tmpjobs.ncpus > s1.tmpjobs.ncpus) then 1
  else 0

/-- The ordering `qsort` establishes from `_compare_support`: `s` may stay
before `s1` exactly when the comparator does not demand the swap. -/
def support_le (s s1 : sort_support) : Bool := compare_support s s1 = 0

/-- Insert into a sorted list (model of the reordering `qsort` performs;
the comparator induces the total preorder `le`). -/
def ins_sorted {α : Type} (le : α → α → Bool) (a : α) : List α → List α
  | [] => [a]
  | b :: t => if le a b then a :: b :: t else b :: ins_sorted le a t

/-- Sort a list by the Boolean total preorder `le`. -/
def sort_by_le {α : Type} (le : α → α → Bool) (l : List α) : List α :=
  l.foldr (ins_sorted le) []

/-- The `qsort(ss, num_jobs, sizeof(struct sort_support), _compare_support)`
call of `_build_row_bitmaps`. -/
def qsort_support (l : List sort_support) : List sort_support :=
  sort_by_le support_le l

/-- `_add_job_to_cores` (src): allocate the row bitmap when missing, then
OR the job's projected cores into it. -/
def add_job_to_cores_row (cores : List Nat) (j : job_resources)
    (r : part_row_data) : part_row_data :=
  let bm := some ((r.first_row_bitmap.getD ∅) ∪ job_global_cores cores j)
  { r with first_row_bitmap := bm }

/-- Modelled from the spec: `common_add_job_to_row` (`cons_common.c`, not
part of src/) appends the job to the row's job list and ORs its cores into
the row bitmap. -/
def common_add_job_to_row (cores : List Nat) (j : job_resources)
    (r : part_row_data) : part_row_data :=
  { job_list := r.job_list ++ [j],
    first_row_bitmap :=
      some ((r.first_row_bitmap.getD ∅) ∪ job_global_cores cores j) }

/-- Modelled from the spec: `remove_job_from_cores` (`job_resources.c`, not
part of src/) clears the job's projected cores from the row bitmap. -/
def remove_job_from_cores (cores : List Nat) (j : job_resources)
    (bm : Option (Finset ℕ)) : Option (Finset ℕ) :=
  bm.map (fun b => b \ job_global_cores cores j)

/-- Set-bit count of a row bitmap (0 for a missing bitmap). -/
def row_bit_count (r : part_row_data) : ℕ := (r.first_row_bitmap.getD ∅).card

/-- Modelled from the spec: `common_sort_part_rows` (`cons_common.c`, not
part of src/) reorders the rows so rows with more set bits come first,
ties keeping their relative order. -/
def common_sort_part_rows (rows : List part_row_data) : List part_row_data :=
  sort_by_le (fun a b => row_bit_count b ≤ row_bit_count a) rows

/-- The gather phase of `_build_row_bitmaps`: flatten all resident jobs
into `sort_support` entries whose key is
`cr_get_coremap_offset(bit_ffs(node_bitmap)) + bit_ffs(core_bitmap)`. -/
def gather_jobs (cores : List Nat) (rows : List part_row_data) :
    List sort_support :=
  ((rows.map part_row_data.job_list).flatten).map (fun j =>
    { jstart := cr_get_coremap_offset cores (bit_ffs j.node_bitmap) +
                bit_ffs j.core_bitmap,
      tmpjobs := j })

/-- Clearing a row during `_build_row_bitmaps`: `num_jobs = 0` and a
cleared (but still allocated, when it was) row bitmap. -/
def clear_row (r : part_row_data) : part_row_data :=
  { job_list := [], first_row_bitmap := r.first_row_bitmap.map (fun _ => ∅) }

/-- One placement step of `_build_row_bitmaps`: put the job into the first
row it fits in; the Boolean records whether some row took it. -/
def place_one (cores : List Nat) (j : job_resources) :
    List part_row_data → (List part_row_data × Bool)
  | [] => ([], false)
  | r :: rest =>
    if can_job_fit_in_row cores j r then
      (common_add_job_to_row cores j r :: rest, true)
    else
      let p := place_one cores j rest
      (r :: p.1, p.2)

/-- The placement loop of `_build_row_bitmaps`: jobs in sorted order, each
into the lowest row that fits, re-sorting the rows after every job; the
Boolean is true when some job dangled (found no row). -/
def place_all (cores : List Nat) :
    List sort_support → List part_row_data → (List part_row_data × Bool)
  | [], rows => (rows, false)
  | s :: rest, rows =>
    let p := place_one cores s.tmpjobs rows
    let q := place_all cores rest (common_sort_part_rows p.1)
    (q.1, (!p.2) || q.2)

/-- The restore pass of `_build_row_bitmaps` (and of the single-row rebuild
branch): clear the row bitmap, then re-add every resident job's cores. -/
def rebuild_row_bitmap (cores : List Nat) (r : part_row_data) :
    part_row_data :=
  if r.job_list.length = 0 then
    { r with first_row_bitmap := r.first_row_bitmap.map (fun _ => ∅) }
  else
    let bm := some ((r.job_list.map (job_global_cores cores)).foldl (· ∪ ·) ∅)
    { r with first_row_bitmap := bm }

/-- Whether the packing pass of `_build_row_bitmaps` leaves a dangling job
on this partition (the condition of the restore branch). -/
def build_row_bitmaps_dangles (cores : List Nat)
    (p : List part_row_data) : Bool :=
  (place_all cores (qsort_support (gather_jobs cores p))
    (p.map clear_row)).2

/-- `_build_row_bitmaps`: after a removal, repack the partition's jobs into
its rows (smallest number of rows, lower rows densest); on a dangling job
restore the snapshotted original layout, rebuilding each row bitmap from
its job list. -/
def build_row_bitmaps (cores : List Nat) (p : List part_row_data)
    (job_ptr : Option job_resources) : List part_row_data :=
  match p with
  | [] => []
  | [this_row] =>
    if this_row.num_jobs = 0 then
      [{ this_row with
          first_row_bitmap := this_row.first_row_bitmap.map (fun _ => ∅) }]
    else
      match job_ptr with
      | some j =>
        [{ this_row with
            first_row_bitmap :=
              remove_job_from_cores cores j this_row.first_row_bitmap }]
      | none => [rebuild_row_bitmap cores this_row]
  | _ =>
    let num_jobs := (p.map part_row_data.num_jobs).sum
    if num_jobs = 0 then
      p.map (fun r =>
        { r with first_row_bitmap := r.first_row_bitmap.map (fun _ => ∅) })
    else
      let orig_row := p
      let ss := qsort_support (gather_jobs cores p)
      let packed := place_all cores ss (p.map clear_row)
      if packed.2 then orig_row.map (rebuild_row_bitmap cores)
      else packed.1

/-- `struct node_use_record` (the fields the claims touch). -/
structure node_use_record where
  alloc_memory : ℕ
  node_state : ℕ
deriving DecidableEq

/-- `struct part_res_record`: one partition of the select engine; `row` is
nullable like the C `struct part_row_data *row`. -/
structure part_res_record where
  part_id : ℕ
  row : Option (List part_row_data)
deriving DecidableEq

/-- `struct job_record` restricted to what `_rm_job_from_one_node` and the
suspend/resume entry points read. -/
structure job_record where
  job_resrcs : Option job_resources
  suspended : Bool
  part_id : Option ℕ
deriving DecidableEq

/-- The rank of node `i` within a node bitmap (the count `n` accumulated by
the C loops `for (i = first_bit; i <= last_bit; i++) ... n++`). -/
def rank_in_bitmap (s : Finset ℕ) (i : ℕ) : ℕ := (s.filter (fun x => x < i)).card

/-- Modelled from the spec: `extract_job_resources_node`
(`job_resources.c`, not part of src/) rewrites the JRR in place — drops the
rank's entries from the per-node arrays, clears its bits from the packed
core_bitmap (shifting later slices down), clears the node's bit from the
node bitmap and so decrements `nhosts`. -/
def extract_job_resources_node (cores : List Nat) (j : job_resources)
    (n : ℕ) : job_resources :=
  let nodes := finset_asc_list j.node_bitmap
  let node := nodes.getD n 0
  let start := ((nodes.take n).map (fun i => cores.getD i 0)).sum
  let width := cores.getD node 0
  let low := j.core_bitmap.filter (fun p => p < start)
  let high := (j.core_bitmap.filter (fun p => start + width ≤ p)).image
    (fun p => p - width)
  { node_bitmap := j.node_bitmap.erase node
    core_bitmap := low ∪ high
    ncpus := j.ncpus
    cpus := j.cpus.eraseIdx n
    memory_allocated := j.memory_allocated.eraseIdx n
    node_req := j.node_req }

/-- Replace (pointer-shared) occurrences of a job_resources record inside a
partition's rows by its in-place-rewritten value. -/
def subst_job_in_rows (old new : job_resources) (rows : List part_row_data) :
    List part_row_data :=
  rows.map (fun r =>
    { r with job_list := r.job_list.map (fun x => if x = old then new else x) })

/-- `_rm_job_from_one_node`: remove one node from a running job — subtract
the node's memory from the node-usage table (clamping a logged underflow to
0), extract the node from the JRR, repack the partition's rows, and
decrement the node's sharing state by the job's `node_req` (clamping a
logged miscount to `NODE_CR_AVAILABLE`).  Returns the C return code
together with the new partition list, node-usage table and job. -/
def rm_job_from_one_node (cores : List Nat) (parts : List part_res_record)
    (node_usage : List node_use_record) (job : job_record) (node_inx : ℕ) :
    Int × List part_res_record × List node_use_record × job_record :=
  match job.job_resrcs with
  | none => (SLURM_ERROR, parts, node_usage, job)
  | some jr =>
    let hit := node_inx ∈ jr.node_bitmap
    let n := rank_in_bitmap jr.node_bitmap node_inx
    if hit ∧ jr.cpus.getD n 0 = 0 then
      -- "attempt to remove node from job again"
      (SLURM_SUCCESS, parts, node_usage, job)
    else
      let mem := jr.memory_allocated.getD n 0
      let nu := node_usage.getD node_inx ⟨0, 0⟩
      let nu1 := if nu.alloc_memory < mem then { nu with alloc_memory := 0 }
                 else { nu with alloc_memory := nu.alloc_memory - mem }
      let node_usage1 := if hit then node_usage.set node_inx nu1 else node_usage
      let jr1 := if hit then extract_job_resources_node cores jr n else jr
      let job1 := { job with job_resrcs := some jr1 }
      if job.suspended then (SLURM_SUCCESS, parts, node_usage1, job1)
      else
        match job.part_id with
        | none => (SLURM_ERROR, parts, node_usage1, job1)
        | some pid =>
          match parts.find? (fun p => p.part_id = pid) with
          | none => (SLURM_ERROR, parts, node_usage1, job1)
          | some p =>
            match p.row with
            | none => (SLURM_SUCCESS, parts, node_usage1, job1)
            | some rows =>
              if ¬ rows.any (fun r => jr ∈ r.job_list) then
                (SLURM_ERROR, parts, node_usage1, job1)
              else
                let rows1 := subst_job_in_rows jr jr1 rows
                let rows2 := build_row_bitmaps cores rows1 none
                let parts1 := parts.map (fun q =>
                  if q.part_id = pid then { q with row := some rows2 } else q)
                let nu2 := node_usage1.getD node_inx ⟨0, 0⟩
                let nu3 := if nu2.node_state ≥ jr.node_req then
                    { nu2 with node_state := nu2.node_state - jr.node_req }
                  else { nu2 with node_state := NODE_CR_AVAILABLE }
                (SLURM_SUCCESS, parts1, node_usage1.set node_inx nu3, job1)

/-- The row-bitmap OR loop of `select_p_select_nodeinfo_set_all`: the union
of every row bitmap across every partition (bitmap lengths are uniform in
the model, so the C size guard always passes). -/
def build_alloc_core_bitmap (parts : List part_res_record) :
    Option (Finset ℕ) :=
  (parts.map part_res_record.row).foldl
    (fun acc row =>
      match row with
      | none => acc
      | some rows =>
        rows.foldl
          (fun acc r =>
            match r.first_row_bitmap with
            | none => acc
            | some bm =>
              match acc with
              | none => some bm
              | some a => some (a ∪ bm))
          acc)
    none

/-- `bit_set_count_range`: set bits of `bm` in `[start, stop)`. -/
def bit_set_count_range (bm : Finset ℕ) (start stop : ℕ) : ℕ :=
  (bm.filter (fun c => start ≤ c ∧ c < stop)).card

/-- The per-node `alloc_cpus` computation of
`select_p_select_nodeinfo_set_all`: count the set bits of the allocated
core bitmap in the node's coremap slice `[start, stop)`, cap the count at
the node's core count, and scale by the thread count when the minimum
allocatable unit is a core but CPUs are reported (`node_cores <
node_cpus`). -/
def nodeinfo_alloc_cpus (acb : Option (Finset ℕ))
    (start stop node_cpus node_threads : ℕ) : ℕ :=
  let alloc := match acb with
    | some bm => bit_set_count_range bm start stop
    | none => 0
  let node_cores := stop - start
  let alloc := if alloc > node_cores then node_cores else alloc
  if node_cores < node_cpus then alloc * node_threads else alloc

/-- `select_p_job_suspend`: a transient (gang-scheduling) suspend with
`indf_susp = false` returns success without touching the engine;
`indf_susp = true` delegates to `common_rm_job_res(..., 2, false)`
(`cons_common.c`, not part of src/, here a parameter). -/
def select_p_job_suspend
    (common_rm_job_res :
      List part_res_record → List node_use_record → job_record → ℕ → Bool →
        Int × List part_res_record × List node_use_record)
    (parts : List part_res_record) (node_usage : List node_use_record)
    (job : job_record) (indf_susp : Bool) :
    Int × List part_res_record × List node_use_record :=
  if ¬ indf_susp then (SLURM_SUCCESS, parts, node_usage)
  else common_rm_job_res parts node_usage job 2 false

/-- `select_p_job_resume`: the mirror of `select_p_job_suspend`, delegating
to `common_add_job_to_res(job, 2)` when `indf_susp = true`. -/
def select_p_job_resume
    (common_add_job_to_res :
      List part_res_record → List node_use_record → job_record → ℕ →
        Int × List part_res_record × List node_use_record)
    (parts : List part_res_record) (node_usage : List node_use_record)
    (job : job_record) (indf_susp : Bool) :
    Int × List part_res_record × List node_use_record :=
  if ¬ indf_susp then (SLURM_SUCCESS, parts, node_usage)
  else common_add_job_to_res parts node_usage job 2

/-- `struct job_resources` as `_job_expand` validates it: the three fields
whose null-ness the guards test. -/
structure job_expand_resources where
  cpus : Option (List ℕ)
  core_bitmap : Option (Finset ℕ)
  node_bitmap : Option (Finset ℕ)
deriving DecidableEq

/-- The `struct job_record` fields `_job_expand`'s guards read. -/
structure job_expand_record where
  job_id : ℕ
  job_resrcs : Option job_expand_resources
deriving DecidableEq

/-- The guard of `_job_expand`: the job lacks a job_resources struct with
non-null `cpus`, `core_bitmap` and `node_bitmap`. -/
def lacks_job_resources (j : job_expand_record) : Bool :=
  match j.job_resrcs with
  | none => true
  | some r => r.cpus = none ∨ r.core_bitmap = none ∨ r.node_bitmap = none

/-- `_job_expand`: merge all resources of `from_job` into `to_job`.  The
validity guards (same job, missing job_resources on either side) run
before the first mutation — the `common_rm_job_res` pair that opens the
merge — so every error path returns with the engine state and both jobs
untouched.  The merge itself (source lines 508–667, which starts by
removing both jobs from the occupancy state) is the `merge_resources`
parameter. -/
def job_expand
    (merge_resources :
      List part_res_record × List node_use_record →
        job_expand_record → job_expand_record →
        Int × (List part_res_record × List node_use_record) ×
          job_expand_record × job_expand_record)
    (s : List part_res_record × List node_use_record)
    (from_job to_job : job_expand_record) :
    Int × (List part_res_record × List node_use_record) ×
      job_expand_record × job_expand_record :=
  if from_job.job_id = to_job.job_id then (SLURM_ERROR, s, from_job, to_job)
  else if lacks_job_resources from_job then (SLURM_ERROR, s, from_job, to_job)
  else if lacks_job_resources to_job then (SLURM_ERROR, s, from_job, to_job)
  else merge_resources s from_job to_job

/-- The core positions of all nodes of a node set. -/
def avail_cores_of (cores : List Nat) (avail : Finset ℕ) : Finset ℕ :=
  avail.biUnion (fun n => (node_core_positions cores n).toFinset)

/-- `_spec_core_filter`: OR into the in/out core bitmap every core that is
not usable — modelled from the spec for `make_core_bitmap` (`job_test.c`,
not part of src/): the usable cores are the cores of the nodes of
`node_bitmap` (no specialized cores in the model), so the filter adds the
complement of those. -/
def spec_core_filter (cores : List Nat) (node_bitmap : Finset ℕ)
    (core_bitmap : Option (Finset ℕ)) : Finset ℕ :=
  (core_bitmap.getD ∅) ∪ (all_cores cores \ avail_cores_of cores node_bitmap)

/-- An inclusive index range `[a, b]` as a list (the C
`for (i = a; i <= b; i++)` iteration space). -/
def range_incl (a b : ℕ) : List ℕ := (List.range (b + 1 - a)).map (fun k => a + k)

/-- Length of the run of free cores starting at `coff`, looking at most
`k` positions ahead (the consecutive `bit_test(tmpcore, coff + jnx)`
successes of `_pick_first_cores`). -/
def free_run (tmp : Finset ℕ) (coff : ℕ) : ℕ → ℕ
  | 0 => 0
  | k + 1 => if coff ∈ tmp then free_run tmp (coff + 1) k + 1 else 0

/-- Result of `_sequential_pick` / `_pick_first_cores` /
`select_p_resv_test`: the returned selection (`none` models the C `NULL`),
the final contents of the caller's in/out `*core_bitmap`, and the final
contents of the caller's `avail_bitmap`. -/
structure resv_pick_result where
  sp_avail : Option (List ℕ)
  core_out : Option (Finset ℕ)
  avail : Finset ℕ
deriving DecidableEq

/-- The node walk of `_pick_first_cores` over the inclusive index range of
`avail_bitmap`: peel `core_cnt[node_offset]` cores from the front of each
node's slice; a node whose first cores are not all free is skipped (any
bits already set stay set); on a selection the rest of the node's slice is
removed from the free set and the walk stops when the next `core_cnt`
entry is zero.  Returns (node_offset, avail, tmpcore, core_bitmap,
sp_avail). -/
def pick_first_cores_go (cores : List Nat) (cc : List ℕ) :
    List ℕ → ℕ → Finset ℕ → Finset ℕ → Finset ℕ → List ℕ →
    ℕ × Finset ℕ × Finset ℕ × Finset ℕ × List ℕ
  | [], off, avail, tmp, core, sp => (off, avail, tmp, core, sp)
  | inx :: rest, off, avail, tmp, core, sp =>
    let coff := cr_get_coremap_offset cores inx
    let lcores := cores.getD inx 0
    let avail1 := avail.erase inx
    let need := cc.getD off 0
    let taken := if lcores < need then 0 else min need (free_run tmp coff need)
    let core1 := core ∪ ((List.range taken).map (fun k => coff + k)).toFinset
    if taken < need then
      pick_first_cores_go cores cc rest off avail1 tmp core1 sp
    else
      let tmp1 := tmp \
        ((List.range (lcores - need)).map (fun k => coff + need + k)).toFinset
      let sp1 := sp ++ [inx]
      let off1 := off + 1
      if cc.getD off1 0 = 0 then (off1, avail1, tmp1, core1, sp1)
      else pick_first_cores_go cores cc rest off1 avail1 tmp1 core1 sp1

/-- `_pick_first_cores`: the FIRST_CORES reservation strategy.  `node_cnt`
is accepted (as in the C signature) but never read. -/
def pick_first_cores (cores : List Nat) (avail : Finset ℕ) (node_cnt : ℕ)
    (core_cnt : Option (List ℕ)) (core_bitmap : Option (Finset ℕ)) :
    resv_pick_result :=
  match core_cnt with
  | none => { sp_avail := none, core_out := core_bitmap, avail := avail }
  | some cc =>
    if cc.getD 0 0 = 0 then
      { sp_avail := none, core_out := core_bitmap, avail := avail }
    else
      let exc := spec_core_filter cores avail core_bitmap
      let tmp := all_cores cores \ exc
      -- the C loop runs over [bit_ffs(avail), bit_fls(avail)]; it does not
      -- run at all when avail is empty (first_node < 0)
      let idxs := if avail = ∅ then []
                  else range_incl (bit_ffs avail) (bit_fls avail)
      let res := pick_first_cores_go cores cc idxs 0 avail tmp ∅ []
      if cc.getD res.1 0 ≠ 0 then
        { sp_avail := none, core_out := some res.2.2.2.1, avail := res.2.1 }
      else
        { sp_avail := some res.2.2.2.2, core_out := some res.2.2.2.1,
          avail := res.2.1 }

/-- The full-node branch of `_sequential_pick`: take the `node_cnt` lowest
nodes of `avail_bitmap`, clearing each from it.  Returns (remaining
node_cnt, avail, selection). -/
def seq_pick_full (node_cnt : ℕ) (avail sel : Finset ℕ) :
    ℕ × Finset ℕ × Finset ℕ :=
  match node_cnt with
  | 0 => (0, avail, sel)
  | k + 1 =>
    match avail.min with
    | none => (k + 1, avail, sel)
    | some inx => seq_pick_full k (avail.erase inx) (insert inx sel)

/-- The per-node take loop of `_sequential_pick` (partial-node branch):
walk the node's core positions, reserving each free one; stop when the
total is reached, or when this node holds its `cores_per_node` share and
no extra cores are still needed.  Returns (total, extra, cores_in_node,
core_bitmap). -/
def seq_take (tmp : Finset ℕ) (cpn : ℕ) :
    List ℕ → ℕ → ℕ → ℕ → Finset ℕ → ℕ × ℕ × ℕ × Finset ℕ
  | [], total, extra, cin, core => (total, extra, cin, core)
  | pos :: rest, total, extra, cin, core =>
    if pos ∈ tmp then
      let core1 := insert pos core
      let total1 := total - 1
      let cin1 := cin + 1
      let extra1 := if cin1 > cpn then extra - 1 else extra
      if total1 = 0 ∨ (extra1 = 0 ∧ cin1 ≥ cpn) then (total1, extra1, cin1, core1)
      else seq_take tmp cpn rest total1 extra1 cin1 core1
    else seq_take tmp cpn rest total extra cin core

/-- The node walk of `_sequential_pick`'s partial-node branch: nodes in
ascending order; in node-list mode (`node_cnt = 0`) the per-node quota is
re-read from `core_cnt[node_list_inx]` (a zero entry stops the walk) and
skipped nodes do not consume a `core_cnt` entry.  Returns (total, extra,
core_bitmap, selection, avail). -/
def seq_pick_partial_go (cores : List Nat) (cc : List ℕ) (node_cnt : ℕ)
    (tmp : Finset ℕ) :
    List ℕ → ℕ → ℕ → ℕ → ℕ → Finset ℕ → Finset ℕ → Finset ℕ →
    ℕ × ℕ × Finset ℕ × Finset ℕ × Finset ℕ
  | [], _, _, extra, total, core, sel, avail => (total, extra, core, sel, avail)
  | inx :: rest, idx, cpn0, extra, total, core, sel, avail =>
    if total = 0 then (total, extra, core, sel, avail)
    else
      let cpn := if node_cnt = 0 then cc.getD idx 0 else cpn0
      if node_cnt = 0 ∧ cpn = 0 then (total, extra, core, sel, avail)
      else
        let lcores := cores.getD inx 0
        let avail1 := avail.erase inx
        if lcores < cpn then
          seq_pick_partial_go cores cc node_cnt tmp rest idx cpn0 extra total
            core sel avail1
        else
          let cin_avail :=
            ((node_core_positions cores inx).filter (fun p => p ∈ tmp)).length
          if cin_avail < cpn then
            seq_pick_partial_go cores cc node_cnt tmp rest idx cpn0 extra total
              core sel avail1
          else
            let t := seq_take tmp cpn (node_core_positions cores inx)
              total extra 0 core
            let sel1 := if t.2.2.1 ≠ 0 then insert inx sel else sel
            if t.1 = 0 then (t.1, t.2.1, t.2.2.2, sel1, avail1)
            else
              seq_pick_partial_go cores cc node_cnt tmp rest (idx + 1) cpn0
                t.2.1 t.1 t.2.2.2 sel1 avail1

/-- Sum of the leading nonzero `core_cnt` entries, over at most `k` of them
(the node-list-mode total of `_sequential_pick`). -/
def sum_leading_cc (cc : List ℕ) : ℕ → ℕ → ℕ
  | 0, _ => 0
  | k + 1, i => if cc.getD i 0 = 0 then 0
                else cc.getD i 0 + sum_leading_cc cc k (i + 1)

/-- `_sequential_pick`: the non-topology reservation strategy.  The
partial-node branch (a `core_cnt` array is present) computes a per-node
quota `core_cnt[0] / MAX(node_cnt, 1)` plus spread extras, filters the
free cores, and walks nodes in ascending order; the full-node branch takes
the `node_cnt` lowest nodes.  On failure the selection is `NULL` — but the
consumed `avail_bitmap` bits and (partial branch) the rewritten
`*core_bitmap` are left as the walk made them. -/
def sequential_pick (cores : List Nat) (avail : Finset ℕ) (node_cnt : ℕ)
    (core_cnt : Option (List ℕ)) (core_bitmap : Option (Finset ℕ)) :
    resv_pick_result :=
  match core_cnt with
  | some cc =>
    let total := if node_cnt ≠ 0 then cc.getD 0 0
                 else sum_leading_cc cc avail.card 0
    let cpn0 := if node_cnt ≠ 0 then cc.getD 0 0 / max node_cnt 1 else 0
    let extra0 := if node_cnt ≠ 0 then cc.getD 0 0 - cpn0 * node_cnt else 0
    let exc := spec_core_filter cores avail core_bitmap
    let tmp := all_cores cores \ exc
    let res := seq_pick_partial_go cores cc node_cnt tmp
      (finset_asc_list avail) 0 cpn0 extra0 total ∅ ∅ avail
    if res.1 ≠ 0 then
      { sp_avail := none, core_out := some res.2.2.1, avail := res.2.2.2.2 }
    else
      { sp_avail := some (finset_asc_list res.2.2.2.1),
        core_out := some res.2.2.1, avail := res.2.2.2.2 }
  | none =>
    let res := seq_pick_full node_cnt avail ∅
    if res.1 ≠ 0 then
      { sp_avail := none, core_out := core_bitmap, avail := res.2.1 }
    else
      { sp_avail := some (finset_asc_list res.2.2),
        core_out := core_bitmap, avail := res.2.1 }

/-- The aggregate-mode `cores_per_node` of `select_p_resv_test` (and the
`cores_per_node` of `_sequential_pick`): `core_cnt[0] / MAX(node_cnt, 1)`
— C integer division, i.e. the floor. -/
def resv_cores_per_node_aggr (cc0 node_cnt : ℕ) : ℕ := cc0 / max node_cnt 1

/-- The per-node take loop of `select_p_resv_test`'s final selection pass:
walk the node's core positions; every free core is moved into both the
fresh `*core_bitmap` and the exclusion bitmap; after every position the
loop stops if the remaining count hit zero or this node reached
`cores_per_node` (aggregate mode) / `core_cnt[n]`.  Returns (exc, core,
rem, cores_in_node). -/
def resv_aggr_take (ccn : ℕ) (aggr : Bool) (cpn : ℕ) :
    List ℕ → Finset ℕ → Finset ℕ → ℕ → ℕ → Finset ℕ × Finset ℕ × ℕ × ℕ
  | [], exc, core, rem, cin => (exc, core, rem, cin)
  | pos :: rest, exc, core, rem, cin =>
    let free := pos ∉ exc
    let exc1 := if free then insert pos exc else exc
    let core1 := if free then insert pos core else core
    let rem1 := if free then rem - 1 else rem
    let cin1 := if free then cin + 1 else cin
    if rem1 = 0 then (exc1, core1, rem1, cin1)
    else if aggr ∧ cin1 ≥ cpn then (exc1, core1, rem1, cin1)
    else if (¬ aggr) ∧ cin1 ≥ ccn then (exc1, core1, rem1, cin1)
    else resv_aggr_take ccn aggr cpn rest exc1 core1 rem1 cin1

/-- One sweep of `select_p_resv_test`'s final selection pass over the given
nodes in ascending order: skip nodes with fewer than `cores_per_node`
total or free cores; on the others run `resv_aggr_take` and add the node
to the selection.  Returns (exc, core, selection, rem, n). -/
def resv_aggr_sweep (cores : List Nat) (cc : List ℕ) (aggr : Bool)
    (cpn : ℕ) :
    List ℕ → ℕ → Finset ℕ → Finset ℕ → Finset ℕ → ℕ →
    Finset ℕ × Finset ℕ × Finset ℕ × ℕ × ℕ
  | [], n, exc, core, sp, rem => (exc, core, sp, rem, n)
  | inx :: rest, n, exc, core, sp, rem =>
    if rem = 0 then (exc, core, sp, rem, n)
    else
      let ncores := cores.getD inx 0
      if ncores < cpn then
        resv_aggr_sweep cores cc aggr cpn rest n exc core sp rem
      else
        let avail_in_node :=
          ((node_core_positions cores inx).filter (fun p => p ∉ exc)).length
        if avail_in_node < cpn then
          resv_aggr_sweep cores cc aggr cpn rest n exc core sp rem
        else
          let t := resv_aggr_take (cc.getD n 0) aggr cpn
            (node_core_positions cores inx) exc core rem 0
          resv_aggr_sweep cores cc aggr cpn rest (n + 1) t.1 t.2.1
            (insert inx sp) t.2.2.1

/-- The repeated second sweeps of `select_p_resv_test`'s aggregate mode:
once the available nodes are exhausted with cores still owed, the selected
nodes are re-offered with the per-node minimum dropped to 1; the loop
stops (and the request fails) when a sweep makes no progress
(`rem_cores == prev_rem_cores`).  `fuel` bounds the recursion; every
caller passes at least `rem`, which suffices because each recursion
strictly decreases `rem`.  Returns (selection, core, rem). -/
def resv_aggr_second (cores : List Nat) : ℕ → Finset ℕ → Finset ℕ →
    Finset ℕ → ℕ → Option (Finset ℕ) × Finset ℕ × ℕ
  | 0, _, core, _, rem => (none, core, rem)
  | fuel + 1, exc, core, sp, rem =>
    let s := resv_aggr_sweep cores [] true 1 (finset_asc_list sp) 0 exc core
      sp rem
    if s.2.2.2.1 = 0 then (some s.2.2.1, s.2.1, 0)
    else if s.2.2.2.1 = rem then (none, s.2.1, s.2.2.2.1)
    else resv_aggr_second cores fuel s.1 s.2.1 s.2.2.1 s.2.2.2.1

/-- The final selection pass of `select_p_resv_test` in aggregate mode
(core_cnt[0] set, core_cnt[1] zero), operating on the node set the
best-fit phase produced: a first sweep with per-node minimum
`core_cnt[0] / MAX(node_cnt, 1)`, then second sweeps with minimum 1; if
cores remain owed the request fails with a `NULL` selection (the partially
filled fresh `*core_bitmap` is still handed back).  Returns (selection,
core_bitmap, rem). -/
def resv_test_aggr_pick (cores : List Nat) (avail_nodes : Finset ℕ)
    (exc0 : Finset ℕ) (cc0 node_cnt : ℕ) :
    Option (Finset ℕ) × Finset ℕ × ℕ :=
  let cpn := resv_cores_per_node_aggr cc0 node_cnt
  let s := resv_aggr_sweep cores [] true cpn (finset_asc_list avail_nodes) 0
    exc0 ∅ ∅ cc0
  if s.2.2.2.1 = 0 then (some s.2.2.1, s.2.1, 0)
  else
    let r := resv_aggr_second cores s.2.2.2.1 s.1 s.2.1 s.2.2.1 s.2.2.2.1
    (r.1, r.2.1, r.2.2)

/-- A concrete two-row partition on one 3-core node: row 0 holds a job on
core 2, row 1 a job on cores 0 and 1 (e.g. what remains after a third job
was removed from row 0). -/
def pack_cex_rows : List part_row_data :=
  [⟨[⟨{0}, {2}, 1, [1], [0], 0⟩], some {2}⟩,
   ⟨[⟨{0}, {0, 1}, 2, [2], [0], 0⟩], some {0, 1}⟩]

/-- A concrete two-row partition on one 11-core node on which the greedy
pack leaves a dangling job: row 0 holds jobs on {0,8} and {2,9,10}, row 1
jobs on {1,9} and {3,8,10}; sorted by first bit the pack groups {0,8} with
{1,9}, after which neither remaining job fits either row. -/
def pack_dangling_rows : List part_row_data :=
  [⟨[⟨{0}, {0, 8}, 2, [2], [0], 0⟩, ⟨{0}, {2, 9, 10}, 3, [3], [0], 0⟩],
    some {0, 2, 8, 9, 10}⟩,
   ⟨[⟨{0}, {1, 9}, 2, [2], [0], 0⟩, ⟨{0}, {3, 8, 10}, 3, [3], [0], 0⟩],
    some {1, 3, 8, 9, 10}⟩]

/-- A concrete two-node job (2 cores per node, one core allocated on each
node, 5 units of memory per node, `node_req = 1`). -/
def rm_wit_jr : job_resources := ⟨{0, 1}, {0, 2}, 2, [1, 1], [5, 5], 1⟩

/-- A single-row partition holding `rm_wit_jr`. -/
def rm_wit_rows : List part_row_data := [⟨[rm_wit_jr], some {0, 2}⟩]

/-- The partition list for the `_rm_job_from_one_node` witness. -/
def rm_wit_parts : List part_res_record := [⟨7, some rm_wit_rows⟩]

/-- A node-usage table where node 1 is under-accounted: 3 units of memory
allocated (the job believes 5) and `node_state = 0` (the job believes it
contributed `node_req = 1`). -/
def rm_wit_usage : List node_use_record := [⟨10, 1⟩, ⟨3, 0⟩]

/-- The job record owning `rm_wit_jr`, running in partition 7. -/
def rm_wit_job : job_record := ⟨some rm_wit_jr, false, some 7⟩

/-! Generic facts about the insertion sort used to model the row and job
reorderings. -/

lemma ins_sorted_perm {α : Type} (le : α → α → Bool) (a : α) (l : List α) :
    (ins_sorted le a l).Perm (a :: l) := by
  induction l with
  | nil => exact List.Perm.refl _
  | cons b t ih =>
    simp only [ins_sorted]
    split
    · exact List.Perm.refl _
    · exact (ih.cons b).trans (List.Perm.swap a b t)

lemma sort_by_le_perm {α : Type} (le : α → α → Bool) (l : List α) :
    (sort_by_le le l).Perm l := by
  induction l with
  | nil => exact List.Perm.refl _
  | cons a t ih =>
    exact (ins_sorted_perm le a (sort_by_le le t)).trans (ih.cons a)

lemma length_sort_by_le {α : Type} (le : α → α → Bool) (l : List α) :
    (sort_by_le le l).length = l.length :=
  (sort_by_le_perm le l).length_eq

lemma pairwise_ins_sorted {α : Type} {le : α → α → Bool}
    (htrans : ∀ a b c, le a b = true → le b c = true → le a c = true)
    (htot : ∀ a b, le a b = true ∨ le b a = true) (a : α) {l : List α}
    (h : l.Pairwise (fun x y => le x y = true)) :
    (ins_sorted le a l).Pairwise (fun x y => le x y = true) := by
  induction l with
  | nil => simp [ins_sorted]
  | cons b t ih =>
    simp only [ins_sorted]
    rcases List.pairwise_cons.mp h with ⟨hb, ht⟩
    split
    · rename_i hab
      refine List.pairwise_cons.mpr ⟨?_, h⟩
      intro y hy
      rcases List.mem_cons.mp hy with rfl | hyt
      · exact hab
      · exact htrans _ _ _ hab (hb y hyt)
    · rename_i hab
      have hba : le b a = true := by
        rcases htot a b with h1 | h1
        · exact absurd h1 hab
        · exact h1
      refine List.pairwise_cons.mpr ⟨?_, ih ht⟩
      intro y hy
      have hy2 : y ∈ a :: t := (ins_sorted_perm le a t).mem_iff.mp hy
      rcases List.mem_cons.mp hy2 with rfl | h2
      · exact hba
      · exact hb y h2

lemma sorted_sort_by_le {α : Type} {le : α → α → Bool}
    (htrans : ∀ a b c, le a b = true → le b c = true → le a c = true)
    (htot : ∀ a b, le a b = true ∨ le b a = true) (l : List α) :
    (sort_by_le le l).Pairwise (fun x y => le x y = true) := by
  induction l with
  | nil => simp [sort_by_le]
  | cons a t ih => exact pairwise_ins_sorted htrans htot a ih

lemma support_le_eq_true_iff (s t : sort_support) :
    support_le s t = true ↔
      (s.jstart < t.jstart ∨
        (s.jstart = t.jstart ∧ s.tmpjobs.ncpus ≤ t.tmpjobs.ncpus)) := by
  unfold support_le compare_support
  split
  · rename_i h
    simp only [decide_eq_true_eq]
    constructor
    · intro h0
      exact absurd h0 (by decide)
    · intro hc
      omega
  · rename_i h
    push_neg at h
    simp only [decide_eq_true_eq]
    constructor
    · intro _
      omega
    · intro _
      decide

lemma support_le_total (a b : sort_support) :
    support_le a b = true ∨ support_le b a = true := by
  rw [support_le_eq_true_iff, support_le_eq_true_iff]
  omega

lemma support_le_trans (a b c : sort_support) (h1 : support_le a b = true)
    (h2 : support_le b c = true) : support_le a c = true := by
  rw [support_le_eq_true_iff] at h1 h2 ⊢
  omega

/-- C4 (counterexample): two jobs with the same sort key
(`jstart = 5`) and `ncpus` 2 and 1.  `_compare_support` orders the
`ncpus = 2` entry after the `ncpus = 1` entry (it returns 1 on the pair in
that order and 0 on the reversed pair), so the packer's sorted list places
the job with the larger `ncpus` last — the claim says the larger `ncpus`
is ordered first. -/
theorem c4_sort_key_cex :
    compare_support ⟨5, ⟨{0}, {5}, 2, [2], [0], 0⟩⟩
        ⟨5, ⟨{0}, {6}, 1, [1], [0], 0⟩⟩ = 1 ∧
    compare_support ⟨5, ⟨{0}, {6}, 1, [1], [0], 0⟩⟩
        ⟨5, ⟨{0}, {5}, 2, [2], [0], 0⟩⟩ = 0 ∧
    (qsort_support [⟨5, ⟨{0}, {5}, 2, [2], [0], 0⟩⟩,
        ⟨5, ⟨{0}, {6}, 1, [1], [0], 0⟩⟩]).map (fun s => s.tmpjobs.ncpus) =
      [1, 2] ∧
    (1 : ℕ) < 2 := by
  refine ⟨by decide, by decide, by decide, by decide⟩

/-- C4 (amended): the packer sorts the flat job list ascending by the key
`offset(firstNode) + firstCore(core_bitmap)`, and on equal keys the job
with the *smaller* `ncpus` comes first (ascending `ncpus`, the order
induced by `_compare_support`); the sorted list is a permutation of the
input. -/
theorem c4_sort_key_amended (l : List sort_support) :
    (qsort_support l).Pairwise
      (fun s t => s.jstart < t.jstart ∨
        (s.jstart = t.jstart ∧ s.tmpjobs.ncpus ≤ t.tmpjobs.ncpus)) ∧
    (qsort_support l).Perm l := by
  constructor
  · have h := sorted_sort_by_le support_le_trans support_le_total l
    exact h.imp (fun hx => (support_le_eq_true_iff _ _).mp hx)
  · exact sort_by_le_perm support_le l

/-- C8: the job-fit test accepts whenever the row is empty — its
`num_jobs` is 0 or its row bitmap is null. -/
theorem c8_empty_row_fits (cores : List Nat) (j : job_resources)
    (r : part_row_data)
    (h : r.num_jobs = 0 ∨ r.first_row_bitmap = none) :
    can_job_fit_in_row cores j r = true := by
  unfold can_job_fit_in_row
  rw [if_pos h]

/-- Witness for C8 at a concrete nonempty-bitmap, zero-jobs row. -/
theorem c8_empty_row_fits_witness :
    ((⟨[], some {0}⟩ : part_row_data).num_jobs = 0 ∨
      (⟨[], some {0}⟩ : part_row_data).first_row_bitmap = none) ∧
    can_job_fit_in_row [2] ⟨{0}, {0}, 1, [1], [0], 0⟩ ⟨[], some {0}⟩ = true :=
  ⟨Or.inl (by decide),
    c8_empty_row_fits [2] ⟨{0}, {0}, 1, [1], [0], 0⟩ ⟨[], some {0}⟩
      (Or.inl (by decide))⟩

/-- C9: with `indf_susp = false` both `select_p_job_suspend` and
`select_p_job_resume` return success and leave the partition rows and the
node-usage table exactly as they were, for every possible behaviour of the
delegated `common_rm_job_res` / `common_add_job_to_res`. -/
theorem c9_transient_suspend_noop
    (common_rm_job_res :
      List part_res_record → List node_use_record → job_record → ℕ → Bool →
        Int × List part_res_record × List node_use_record)
    (common_add_job_to_res :
      List part_res_record → List node_use_record → job_record → ℕ →
        Int × List part_res_record × List node_use_record)
    (parts : List part_res_record) (node_usage : List node_use_record)
    (job : job_record) :
    select_p_job_suspend common_rm_job_res parts node_usage job false =
      (SLURM_SUCCESS, parts, node_usage) ∧
    select_p_job_resume common_add_job_to_res parts node_usage job false =
      (SLURM_SUCCESS, parts, node_usage) :=
  ⟨rfl, rfl⟩

/-- C10: `_job_expand` validates before it mutates — when the two jobs are
the same job, or either lacks a job_resources struct with non-null `cpus`,
`core_bitmap` and `node_bitmap`, it returns an error with the engine state
and both job records untouched, for every possible behaviour of the merge
that follows the guards. -/
theorem c10_expand_guards
    (merge_resources :
      List part_res_record × List node_use_record →
        job_expand_record → job_expand_record →
        Int × (List part_res_record × List node_use_record) ×
          job_expand_record × job_expand_record)
    (s : List part_res_record × List node_use_record)
    (from_job to_job : job_expand_record)
    (h : from_job.job_id = to_job.job_id ∨
      lacks_job_resources from_job = true ∨
      lacks_job_resources to_job = true) :
    job_expand merge_resources s from_job to_job =
      (SLURM_ERROR, s, from_job, to_job) := by
  unfold job_expand
  rcases h with h | h | h
  · rw [if_pos h]
  · by_cases h1 : from_job.job_id = to_job.job_id
    · rw [if_pos h1]
    · rw [if_neg h1, if_pos h]
  · by_cases h1 : from_job.job_id = to_job.job_id
    · rw [if_pos h1]
    · rw [if_neg h1]
      by_cases h2 : lacks_job_resources from_job = true
      · rw [if_pos h2]
      · rw [if_neg h2, if_pos h]

/-- Witness for C10: expanding a job into itself fails and changes
nothing, even under a merge that would report success. -/
theorem c10_expand_guards_witness :
    ((⟨1, none⟩ : job_expand_record).job_id =
      (⟨1, some ⟨some [], some ∅, some ∅⟩⟩ : job_expand_record).job_id) ∧
    job_expand (fun s f t => (SLURM_SUCCESS, s, f, t)) ([], [])
        ⟨1, none⟩ ⟨1, some ⟨some [], some ∅, some ∅⟩⟩ =
      (SLURM_ERROR, ([], []), ⟨1, none⟩,
        ⟨1, some ⟨some [], some ∅, some ∅⟩⟩) :=
  ⟨by decide,
    c10_expand_guards (fun s f t => (SLURM_SUCCESS, s, f, t)) ([], [])
      ⟨1, none⟩ ⟨1, some ⟨some [], some ∅, some ∅⟩⟩ (Or.inl (by decide))⟩

lemma nodeinfo_alloc_cpus_le (acb : Option (Finset ℕ))
    (start stop node_cpus node_threads : ℕ) :
    nodeinfo_alloc_cpus acb start stop node_cpus node_threads ≤
      (stop - start) * (if stop - start < node_cpus then node_threads else 1) := by
  cases acb with
  | none =>
    simp only [nodeinfo_alloc_cpus, gt_iff_lt]
    have h0 : ¬ (stop - start < 0) := by omega
    rw [if_neg h0]
    split_ifs with h2
    · simp
    · omega
  | some bm =>
    simp only [nodeinfo_alloc_cpus, gt_iff_lt]
    by_cases h1 : stop - start < bit_set_count_range bm start stop
    · rw [if_pos h1]
      split_ifs with h2
      · exact Nat.le_refl _
      · omega
    · rw [if_neg h1]
      split_ifs with h2
      · exact Nat.mul_le_mul_right _ (Nat.le_of_not_lt h1)
      · omega

/-- C5: the rollup's per-node `alloc_cpus` — the set bits of the OR of all
row bitmaps restricted to the node's coremap slice, capped at the node's
core count and scaled by the thread count when `node_cores < node_cpus` —
never exceeds the node's total cores after the same thread scaling. -/
theorem c5_alloc_cpus_bound (parts : List part_res_record)
    (start stop node_cpus node_threads : ℕ) :
    nodeinfo_alloc_cpus (build_alloc_core_bitmap parts) start stop node_cpus
        node_threads ≤
      (stop - start) * (if stop - start < node_cpus then node_threads else 1) :=
  nodeinfo_alloc_cpus_le (build_alloc_core_bitmap parts) start stop node_cpus
    node_threads

lemma place_one_length (cores : List Nat) (j : job_resources) :
    ∀ rows : List part_row_data, (place_one cores j rows).1.length = rows.length := by
  intro rows
  induction rows with
  | nil => rfl
  | cons r rest ih =>
    simp only [place_one]
    split
    · simp
    · simp [ih]

lemma place_all_length (cores : List Nat) :
    ∀ (ss : List sort_support) (rows : List part_row_data),
      (place_all cores ss rows).1.length = rows.length := by
  intro ss
  induction ss with
  | nil => intro rows; rfl
  | cons s rest ih =>
    intro rows
    simp only [place_all]
    rw [ih]
    simp only [common_sort_part_rows]
    rw [length_sort_by_le]
    exact place_one_length cores s.tmpjobs rows

/-- C1 (counterexample): on a one-node (3 cores) partition whose rows hold
popcounts [1, 2], a repack with no jobs added merges both jobs into row 0,
raising row 0's popcount from 1 to 3 — the repack does not dangle, yet a
row's `row_bitmap` popcount increased over the pre-pack state, so the
claimed monotonicity fails on the successful-pack path. -/
theorem c1_repack_not_worse_cex :
    (build_row_bitmaps [3] pack_cex_rows none).map row_bit_count = [3, 0] ∧
    pack_cex_rows.map row_bit_count = [1, 2] ∧ (1 : ℕ) < 3 :=
  ⟨by decide, by decide, by decide⟩

/-- C1 (amended): a repack never changes the number of rows (`num_rows`),
and when some job fails to place (the dangling case) the packed layout is
discarded: the result is exactly the snapshotted original rows with every
row's bitmap rebuilt from its own job list, so the dangling path is never
worse than the pre-pack layout.  (When every job places, the number of
used rows and individual row popcounts may grow — see the
counterexample.) -/
theorem c1_repack_amended (cores : List Nat) (p : List part_row_data)
    (j : Option job_resources) :
    (build_row_bitmaps cores p j).length = p.length ∧
    (2 ≤ p.length → (p.map part_row_data.num_jobs).sum ≠ 0 →
      build_row_bitmaps_dangles cores p = true →
      build_row_bitmaps cores p j = p.map (rebuild_row_bitmap cores)) := by
  rcases p with _ | ⟨a, _ | ⟨b, t⟩⟩
  · exact ⟨rfl, fun h => absurd h (by simp)⟩
  · constructor
    · simp only [build_row_bitmaps]
      split
      · simp
      · cases j <;> simp
    · intro h
      exact absurd h (by simp)
  · constructor
    · simp only [build_row_bitmaps]
      by_cases hn : ((a :: b :: t).map part_row_data.num_jobs).sum = 0
      · rw [if_pos hn]
        simp
      · rw [if_neg hn]
        by_cases hd :
            (place_all cores (qsort_support (gather_jobs cores (a :: b :: t)))
              ((a :: b :: t).map clear_row)).2 = true
        · rw [if_pos hd]
          simp
        · rw [if_neg hd]
          rw [place_all_length]
          simp
    · intro _ hsum hd
      simp only [build_row_bitmaps_dangles] at hd
      simp only [build_row_bitmaps]
      rw [if_neg hsum, if_pos hd]

lemma getD_set_self {α : Type} (l : List α) (i : ℕ) (a d : α)
    (h : i < l.length) : (l.set i a).getD i d = a := by
  rw [List.getD_eq_getElem?_getD, List.getElem?_set_eq_of_lt _ h]
  rfl

/-- C6: when `_rm_job_from_one_node` runs on a well-formed removal (the
job has resources, the node is in the job with a nonzero cpu count, the
job's partition and row are found) and both subtractions would underflow —
the node's `alloc_memory` is smaller than the job's per-node memory and
its `node_state` smaller than the job's `node_req` — both underflows are
repaired in place (`alloc_memory` clamped to 0, `node_state` clamped to
`NODE_CR_AVAILABLE`) and the call still returns success. -/
theorem c6_rm_underflow (cores : List Nat) (parts : List part_res_record)
    (usage : List node_use_record) (job : job_record) (node_inx : ℕ)
    (jr : job_resources) (pid : ℕ) (p : part_res_record)
    (rows : List part_row_data)
    (h1 : job.job_resrcs = some jr)
    (h2 : job.suspended = false)
    (h3 : node_inx ∈ jr.node_bitmap)
    (h4 : jr.cpus.getD (rank_in_bitmap jr.node_bitmap node_inx) 0 ≠ 0)
    (h5 : job.part_id = some pid)
    (h6 : parts.find? (fun q => q.part_id = pid) = some p)
    (h7 : p.row = some rows)
    (h8 : rows.any (fun r => jr ∈ r.job_list) = true)
    (h9 : node_inx < usage.length)
    (h10 : (usage.getD node_inx ⟨0, 0⟩).alloc_memory <
      jr.memory_allocated.getD (rank_in_bitmap jr.node_bitmap node_inx) 0)
    (h11 : (usage.getD node_inx ⟨0, 0⟩).node_state < jr.node_req) :
    (rm_job_from_one_node cores parts usage job node_inx).1 = SLURM_SUCCESS ∧
    ((rm_job_from_one_node cores parts usage job node_inx).2.2.1.getD node_inx
      ⟨0, 0⟩).alloc_memory = 0 ∧
    ((rm_job_from_one_node cores parts usage job node_inx).2.2.1.getD node_inx
      ⟨0, 0⟩).node_state = NODE_CR_AVAILABLE := by
  have hguard : ¬ (node_inx ∈ jr.node_bitmap ∧
      jr.cpus.getD (rank_in_bitmap jr.node_bitmap node_inx) 0 = 0) :=
    fun hc => h4 hc.2
  have hany : ¬ ¬ rows.any (fun r => jr ∈ r.job_list) = true := not_not_intro h8
  simp only [rm_job_from_one_node, h1, h2, h5, h6, h7]
  rw [if_neg hguard]
  rw [if_pos h3, if_pos h3, if_pos h10]
  simp only [Bool.false_eq_true, if_false]
  rw [if_neg hany]
  have hlen : node_inx < (usage.set node_inx
      { usage.getD node_inx ⟨0, 0⟩ with alloc_memory := 0 }).length := by
    rw [List.length_set]
    exact h9
  have hget : (usage.set node_inx
      { usage.getD node_inx ⟨0, 0⟩ with alloc_memory := 0 }).getD node_inx
        ⟨0, 0⟩ =
      { usage.getD node_inx ⟨0, 0⟩ with alloc_memory := 0 } :=
    getD_set_self usage node_inx _ ⟨0, 0⟩ h9
  rw [hget]
  have hstate : ¬ ((usage.getD node_inx ⟨0, 0⟩).node_state ≥ jr.node_req) :=
    Nat.not_le_of_lt h11
  rw [if_neg hstate]
  refine ⟨rfl, ?_, ?_⟩
  · rw [getD_set_self _ _ _ _ hlen]
  · rw [getD_set_self _ _ _ _ hlen]

/-- Witness for C6 at a concrete doubly-underflowing removal. -/
theorem c6_rm_underflow_witness :
    (rm_wit_usage.getD 1 ⟨0, 0⟩).alloc_memory <
      rm_wit_jr.memory_allocated.getD
        (rank_in_bitmap rm_wit_jr.node_bitmap 1) 0 ∧
    (rm_job_from_one_node [2, 2] rm_wit_parts rm_wit_usage rm_wit_job 1).1 =
      SLURM_SUCCESS ∧
    ((rm_job_from_one_node [2, 2] rm_wit_parts rm_wit_usage rm_wit_job
        1).2.2.1.getD 1 ⟨0, 0⟩).alloc_memory = 0 ∧
    ((rm_job_from_one_node [2, 2] rm_wit_parts rm_wit_usage rm_wit_job
        1).2.2.1.getD 1 ⟨0, 0⟩).node_state = NODE_CR_AVAILABLE :=
  ⟨by decide,
    c6_rm_underflow [2, 2] rm_wit_parts rm_wit_usage rm_wit_job 1 rm_wit_jr 7
      ⟨7, some rm_wit_rows⟩ rm_wit_rows (by decide) (by decide) (by decide)
      (by decide) (by decide) (by decide) (by decide) (by decide) (by decide)
      (by decide) (by decide)⟩

lemma seq_pick_full_fail_iff :
    ∀ (nc : ℕ) (avail sel : Finset ℕ),
      (seq_pick_full nc avail sel).1 = 0 ↔ nc ≤ avail.card := by
  intro nc
  induction nc with
  | zero =>
    intro avail sel
    simp [seq_pick_full]
  | succ k ih =>
    intro avail sel
    simp only [seq_pick_full]
    split
    · rename_i h
      have hav : avail = ∅ := Finset.min_eq_top.mp h
      subst hav
      simp
    · rename_i inx h
      have hmem : inx ∈ avail := Finset.mem_of_min h
      have hcard : (avail.erase inx).card = avail.card - 1 :=
        Finset.card_erase_of_mem hmem
      have hpos : 0 < avail.card := Finset.card_pos.mpr ⟨inx, hmem⟩
      rw [ih (avail.erase inx) (insert inx sel), hcard]
      omega

lemma seq_pick_full_avail_subset :
    ∀ (nc : ℕ) (avail sel : Finset ℕ) (x : ℕ),
      x ∈ (seq_pick_full nc avail sel).2.1 → x ∈ avail := by
  intro nc
  induction nc with
  | zero =>
    intro avail sel x hx
    exact hx
  | succ k ih =>
    intro avail sel x hx
    simp only [seq_pick_full] at hx
    split at hx
    · exact hx
    · rename_i inx h
      exact Finset.mem_of_mem_erase (ih (avail.erase inx) (insert inx sel) x hx)

lemma seq_pick_partial_go_avail_subset (cores : List Nat) (cc : List ℕ)
    (node_cnt : ℕ) (tmp : Finset ℕ) :
    ∀ (idxs : List ℕ) (idx cpn0 extra total : ℕ)
      (core sel avail : Finset ℕ) (x : ℕ),
      x ∈ (seq_pick_partial_go cores cc node_cnt tmp idxs idx cpn0 extra total
        core sel avail).2.2.2.2 → x ∈ avail := by
  intro idxs
  induction idxs with
  | nil =>
    intro idx cpn0 extra total core sel avail x hx
    exact hx
  | cons inx rest ih =>
    intro idx cpn0 extra total core sel avail x hx
    simp only [seq_pick_partial_go] at hx
    repeat' split at hx
    all_goals
      first
      | exact hx
      | exact Finset.mem_of_mem_erase (ih _ _ _ _ _ _ _ _ hx)
      | exact Finset.mem_of_mem_erase hx

lemma seq_take_core_mem (tmp : Finset ℕ) (cpn : ℕ) :
    ∀ (l : List ℕ) (total extra cin : ℕ) (core : Finset ℕ) (x : ℕ),
      x ∈ (seq_take tmp cpn l total extra cin core).2.2.2 →
      x ∈ core ∨ x ∈ tmp := by
  intro l
  induction l with
  | nil =>
    intro total extra cin core x hx
    exact Or.inl hx
  | cons pos rest ih =>
    intro total extra cin core x hx
    simp only [seq_take] at hx
    by_cases hfree : pos ∈ tmp
    · rw [if_pos hfree] at hx
      repeat' split at hx
      all_goals
        first
        | exact (Finset.mem_insert.mp hx).elim (fun h => Or.inr (h ▸ hfree))
            Or.inl
        | exact (ih _ _ _ _ x hx).elim
            (fun hc => (Finset.mem_insert.mp hc).elim
              (fun h => Or.inr (h ▸ hfree)) Or.inl)
            Or.inr
    · rw [if_neg hfree] at hx
      exact ih _ _ _ _ x hx

lemma seq_pick_partial_go_core_mem (cores : List Nat) (cc : List ℕ)
    (node_cnt : ℕ) (tmp : Finset ℕ) :
    ∀ (idxs : List ℕ) (idx cpn0 extra total : ℕ)
      (core sel avail : Finset ℕ) (x : ℕ),
      x ∈ (seq_pick_partial_go cores cc node_cnt tmp idxs idx cpn0 extra total
        core sel avail).2.2.1 → x ∈ core ∨ x ∈ tmp := by
  intro idxs
  induction idxs with
  | nil =>
    intro idx cpn0 extra total core sel avail x hx
    exact Or.inl hx
  | cons inx rest ih =>
    intro idx cpn0 extra total core sel avail x hx
    simp only [seq_pick_partial_go] at hx
    repeat' split at hx
    all_goals
      first
      | exact Or.inl hx
      | exact ih _ _ _ _ _ _ _ _ hx
      | exact seq_take_core_mem tmp _ _ _ _ _ _ x hx
      | exact (ih _ _ _ _ _ _ _ _ hx).elim
          (fun h2 => seq_take_core_mem tmp _ _ _ _ _ _ x h2) Or.inr

/-- C2 (counterexample): `_sequential_pick` asked for 2 full nodes with
only node 0 available fails — the selection is `NULL` as claimed — but the
caller's `avail_bitmap` comes back empty, not `{0}`: the bit of every
visited node was cleared and is not restored on the failure path.
Moreover the partial-node branch leaves new reserved bits in the in/out
core bitmap on failure: asking for 5 cores over two free 2-core nodes
(`core_cnt = [5, 0]`, input core bitmap NULL) fails with a `NULL`
selection, yet the rewritten core bitmap comes back holding the four
partially selected cores. -/
theorem c2_resv_fail_cex :
    (sequential_pick [1, 1] {0} 2 none none).sp_avail = none ∧
    (sequential_pick [1, 1] {0} 2 none none).avail = ∅ ∧
    ({0} : Finset ℕ) ≠ (∅ : Finset ℕ) ∧
    (sequential_pick [2, 2] {0, 1} 2 (some [5, 0]) none).sp_avail = none ∧
    (sequential_pick [2, 2] {0, 1} 2 (some [5, 0]) none).core_out.getD ∅ =
      ({0, 1, 2, 3} : Finset ℕ) ∧
    ({0, 1, 2, 3} : Finset ℕ) ≠ (∅ : Finset ℕ) :=
  ⟨by decide, by decide, by decide, by decide, by decide, by decide⟩

/-- C2 (amended): when `_sequential_pick` fails it returns an empty
(`NULL`) selection — the full-node walk fails exactly when `avail_bitmap`
holds fewer than `node_cnt` nodes — but the input bitmaps are not
restored: the returned `avail_bitmap` is only ever a subset of the input
(visited nodes stay cleared, also on failure), and the partial-node
branch always hands back a rewritten (non-NULL) in/out core bitmap every
bit of which was free before the call — the input's reserved bits are
cleared out of it, and what it holds is exactly what the walk selected,
which on failure is the partial selection (see the counterexample). -/
theorem c2_resv_fail_amended :
    (∀ (cores : List Nat) (avail : Finset ℕ) (node_cnt : ℕ)
        (cb : Option (Finset ℕ)),
      ((sequential_pick cores avail node_cnt none cb).sp_avail = none ↔
        avail.card < node_cnt) ∧
      (∀ x, x ∈ (sequential_pick cores avail node_cnt none cb).avail →
        x ∈ avail)) ∧
    (∀ (cores : List Nat) (avail : Finset ℕ) (node_cnt : ℕ) (cc : List ℕ)
        (cb : Option (Finset ℕ)),
      ∀ x, x ∈ (sequential_pick cores avail node_cnt (some cc) cb).avail →
        x ∈ avail) ∧
    (∀ (cores : List Nat) (avail : Finset ℕ) (node_cnt : ℕ) (cc : List ℕ)
        (cb : Option (Finset ℕ)),
      (sequential_pick cores avail node_cnt (some cc) cb).core_out.isSome =
        true ∧
      (∀ x, x ∈ (sequential_pick cores avail node_cnt
          (some cc) cb).core_out.getD ∅ →
        x ∈ all_cores cores ∧ x ∉ cb.getD ∅)) := by
  refine ⟨?_, ?_, ?_⟩
  · intro cores avail node_cnt cb
    have h0 := seq_pick_full_fail_iff node_cnt avail ∅
    constructor
    · simp only [sequential_pick]
      split
      · rename_i hr
        constructor
        · intro _
          omega
        · intro _
          rfl
      · rename_i hr
        have hr0 : (seq_pick_full node_cnt avail ∅).1 = 0 := not_ne_iff.mp hr
        constructor
        · intro hs
          exact absurd hs (by simp)
        · intro hlt
          omega
    · intro x
      simp only [sequential_pick]
      split
      · exact seq_pick_full_avail_subset node_cnt avail ∅ x
      · exact seq_pick_full_avail_subset node_cnt avail ∅ x
  · intro cores avail node_cnt cc cb x
    simp only [sequential_pick]
    repeat' split
    all_goals
      exact seq_pick_partial_go_avail_subset cores cc node_cnt _ _ _ _ _ _ _ _
        avail x
  · intro cores avail node_cnt cc cb
    constructor
    · simp only [sequential_pick]
      repeat' split
      all_goals rfl
    · intro x hx
      simp only [sequential_pick] at hx
      repeat' split at hx
      all_goals {
        rcases seq_pick_partial_go_core_mem cores cc node_cnt _ _ _ _ _ _ _ _
          _ x hx with h2 | h2
        · exact absurd h2 (Finset.not_mem_empty x)
        · rcases Finset.mem_sdiff.mp h2 with ⟨hall, hnotf⟩
          refine ⟨hall, fun hc => hnotf ?_⟩
          unfold spec_core_filter
          exact Finset.mem_union_left _ hc
      }

/-- Witness for C2 (amended): a failing full-node request returns a `NULL`
selection; a node surviving in the returned `avail_bitmap` was in the
input `avail_bitmap`; and a bit found in the rewritten core bitmap of a
failing partial-node request is a cluster core that was not reserved in
the input core bitmap. -/
theorem c2_resv_fail_amended_witness :
    (sequential_pick [1, 1] {0} 2 none none).sp_avail = none ∧
    1 ∈ ({0, 1} : Finset ℕ) ∧
    (3 ∈ all_cores [2, 2] ∧ 3 ∉ ((none : Option (Finset ℕ)).getD ∅)) :=
  ⟨(c2_resv_fail_amended.1 [1, 1] {0} 2 none).1.mpr (by decide),
    (c2_resv_fail_amended.1 [1, 1] {0, 1} 1 none).2 1 (by decide),
    (c2_resv_fail_amended.2.2 [2, 2] {0, 1} 2 [5, 0] none).2 3 (by decide)⟩

lemma cr_offset_succ (cores : List Nat) (n : ℕ) :
    cr_get_coremap_offset cores (n + 1) =
      cr_get_coremap_offset cores n + cores.getD n 0 := by
  unfold cr_get_coremap_offset
  rw [List.take_succ, List.sum_append, List.getD_eq_getElem?_getD]
  cases h : cores[n]? <;> simp [h]

lemma cr_offset_mono (cores : List Nat) {a b : ℕ} (h : a ≤ b) :
    cr_get_coremap_offset cores a ≤ cr_get_coremap_offset cores b := by
  obtain ⟨k, rfl⟩ := Nat.exists_eq_add_of_le h
  induction k with
  | zero => exact Nat.le_refl _
  | succ m ih =>
    have := cr_offset_succ cores (a + m)
    have hs : a + (m + 1) = (a + m) + 1 := by omega
    rw [hs, cr_offset_succ cores (a + m)]
    omega

lemma mem_node_core_positions {cores : List Nat} {n p : ℕ} :
    p ∈ node_core_positions cores n ↔
      ∃ k, k < cores.getD n 0 ∧ p = cr_get_coremap_offset cores n + k := by
  simp only [node_core_positions, List.mem_map, List.mem_range]
  constructor
  · rintro ⟨k, hk, rfl⟩
    exact ⟨k, hk, rfl⟩
  · rintro ⟨k, hk, rfl⟩
    exact ⟨k, hk, rfl⟩

lemma mem_avail_cores_of {cores : List Nat} {s : Finset ℕ} {p : ℕ} :
    p ∈ avail_cores_of cores s ↔
      ∃ n ∈ s, p ∈ node_core_positions cores n := by
  simp [avail_cores_of, Finset.mem_biUnion, List.mem_toFinset]

lemma avail_cores_owner {cores : List Nat} {s : Finset ℕ} {inx : ℕ}
    (h1 : 1 ≤ cores.getD inx 0)
    (h2 : cr_get_coremap_offset cores inx ∈ avail_cores_of cores s) :
    inx ∈ s := by
  rcases mem_avail_cores_of.mp h2 with ⟨n, hn, hp⟩
  rcases mem_node_core_positions.mp hp with ⟨k, hk, hpe⟩
  rcases lt_trichotomy n inx with hlt | heq | hgt
  · have hmono := cr_offset_mono cores (show n + 1 ≤ inx by omega)
    have hsn := cr_offset_succ cores n
    omega
  · rw [heq] at hn
    exact hn
  · have hmono := cr_offset_mono cores (show inx + 1 ≤ n by omega)
    have hsi := cr_offset_succ cores inx
    omega

lemma free_run_pos_mem {tmp : Finset ℕ} {coff : ℕ} :
    ∀ {k : ℕ}, 1 ≤ free_run tmp coff k → coff ∈ tmp := by
  intro k
  cases k with
  | zero =>
    intro h
    exact absurd h (by simp [free_run])
  | succ m =>
    simp only [free_run]
    split
    · intro _
      assumption
    · intro h
      exact absurd h (by omega)

lemma tmp_subset_avail_cores (cores : List Nat) (avail : Finset ℕ)
    (cb : Option (Finset ℕ)) :
    ∀ x ∈ all_cores cores \ spec_core_filter cores avail cb,
      x ∈ avail_cores_of cores avail := by
  intro x hx
  simp only [spec_core_filter, Finset.mem_sdiff, Finset.mem_union,
    not_or] at hx
  rcases hx with ⟨hall, _, hnot⟩
  by_contra hc
  exact hnot ⟨hall, hc⟩

lemma pick_first_cores_go_spec (cores : List Nat) (cc : List ℕ)
    (avail0 : Finset ℕ) :
    ∀ (idxs : List ℕ) (off : ℕ) (avail tmp core : Finset ℕ) (sp : List ℕ),
      (∀ x ∈ tmp, x ∈ avail_cores_of cores avail0) →
      cc.getD off 0 ≠ 0 →
      ∃ ex : List ℕ,
        (pick_first_cores_go cores cc idxs off avail tmp core sp).2.2.2.2 =
          sp ++ ex ∧
        (pick_first_cores_go cores cc idxs off avail tmp core sp).1 =
          off + ex.length ∧
        (∀ x ∈ core,
          x ∈ (pick_first_cores_go cores cc idxs off avail tmp core
            sp).2.2.2.1) ∧
        (∀ j, j < ex.length → ∀ k, k < cc.getD (off + j) 0 →
          cr_get_coremap_offset cores (ex.getD j 0) + k ∈
            (pick_first_cores_go cores cc idxs off avail tmp core
              sp).2.2.2.1) ∧
        (∀ i ∈ ex, i ∈ avail0) := by
  intro idxs
  induction idxs with
  | nil =>
    intro off avail tmp core sp htmp hcc
    refine ⟨[], by simp [pick_first_cores_go], by simp [pick_first_cores_go],
      ?_, ?_, ?_⟩
    · intro x hx
      exact hx
    · intro j hj
      exact absurd hj (by simp)
    · intro i hi
      exact absurd hi (by simp)
  | cons inx rest ih =>
    intro off avail tmp core sp htmp hcc
    simp only [pick_first_cores_go]
    by_cases hskip : (if cores.getD inx 0 < cc.getD off 0 then 0
        else min (cc.getD off 0)
          (free_run tmp (cr_get_coremap_offset cores inx) (cc.getD off 0))) <
        cc.getD off 0
    · rw [if_pos hskip]
      rcases ih off (avail.erase inx) tmp
        (core ∪ ((List.range (if cores.getD inx 0 < cc.getD off 0 then 0
          else min (cc.getD off 0) (free_run tmp
            (cr_get_coremap_offset cores inx) (cc.getD off 0)))).map
          (fun k => cr_get_coremap_offset cores inx + k)).toFinset)
        sp htmp hcc with ⟨ex, he1, he2, he3, he4, he5⟩
      refine ⟨ex, he1, he2, ?_, he4, he5⟩
      intro x hx
      exact he3 x (Finset.mem_union_left _ hx)
    · rw [if_neg hskip]
      have htaken : (if cores.getD inx 0 < cc.getD off 0 then 0
          else min (cc.getD off 0) (free_run tmp
            (cr_get_coremap_offset cores inx) (cc.getD off 0))) =
          cc.getD off 0 := by
        by_cases hl : cores.getD inx 0 < cc.getD off 0
        · rw [if_pos hl] at hskip
          omega
        · rw [if_neg hl] at hskip ⊢
          omega
      have hlc : ¬ cores.getD inx 0 < cc.getD off 0 := by
        intro hl
        rw [if_pos hl] at hskip
        omega
      have hfr : 1 ≤ free_run tmp (cr_get_coremap_offset cores inx)
          (cc.getD off 0) := by
        rw [if_neg hlc] at htaken
        omega
      have hcoff : cr_get_coremap_offset cores inx ∈ tmp :=
        free_run_pos_mem hfr
      have hinx : inx ∈ avail0 :=
        avail_cores_owner (by omega) (htmp _ hcoff)
      rw [htaken]
      set core1 := core ∪ ((List.range (cc.getD off 0)).map
        (fun k => cr_get_coremap_offset cores inx + k)).toFinset with hcore1
      have hcoresub : ∀ x ∈ core, x ∈ core1 := by
        intro x hx
        exact Finset.mem_union_left _ hx
      have hfirst : ∀ k, k < cc.getD off 0 →
          cr_get_coremap_offset cores inx + k ∈ core1 := by
        intro k hk
        refine Finset.mem_union_right _ ?_
        rw [List.mem_toFinset]
        simp only [List.mem_map, List.mem_range]
        exact ⟨k, hk, rfl⟩
      by_cases hz : cc.getD (off + 1) 0 = 0
      · rw [if_pos hz]
        refine ⟨[inx], rfl, by simp, ?_, ?_, ?_⟩
        · intro x hx
          exact hcoresub x hx
        · intro j hj k hk
          have hj0 : j = 0 := by simpa using hj
          subst hj0
          simpa using hfirst k (by simpa using hk)
        · intro i hi
          have : i = inx := by simpa using hi
          subst this
          exact hinx
      · rw [if_neg hz]
        have htmp1 : ∀ x ∈ tmp \ ((List.range (cores.getD inx 0 -
            cc.getD off 0)).map (fun k => cr_get_coremap_offset cores inx +
              cc.getD off 0 + k)).toFinset,
            x ∈ avail_cores_of cores avail0 := by
          intro x hx
          exact htmp x (Finset.mem_sdiff.mp hx).1
        rcases ih (off + 1) (avail.erase inx) _ core1 (sp ++ [inx]) htmp1 hz
          with ⟨ex, he1, he2, he3, he4, he5⟩
        refine ⟨inx :: ex, ?_, ?_, ?_, ?_, ?_⟩
        · rw [he1, List.append_assoc]
          rfl
        · rw [he2]
          simp
          omega
        · intro x hx
          exact he3 x (hcoresub x hx)
        · intro j hj k hk
          cases j with
          | zero =>
            have hk0 : k < cc.getD off 0 := by simpa using hk
            simpa using he3 _ (hfirst k hk0)
          | succ m =>
            have hm : m < ex.length := by simpa using hj
            have hkm : k < cc.getD (off + 1 + m) 0 := by
              have : off + (m + 1) = off + 1 + m := by omega
              rw [this] at hk
              exact hk
            have := he4 m hm k hkm
            simpa using this
        · intro i hi
          rcases List.mem_cons.mp hi with rfl | hi2
          · exact hinx
          · exact he5 i hi2

/-- C7 (counterexample): `_pick_first_cores` ignores `node_cnt`.  With two
1-core nodes, `core_cnt = [1, 1, 0]` and `node_cnt = 1`, the walk selects
both nodes — it does not stop once `node_cnt` nodes are reached.
Furthermore, a node whose core 0 is excluded is skipped even when it has
enough free cores elsewhere: with 2-core nodes, `core_cnt = [1, 0]` and
core 0 of node 0 already reserved, node 0 (free core 1 available) is
passed over and node 1 is selected instead, so the cores are not taken
"starting from the lowest available core index". -/
theorem c7_first_cores_cex :
    (pick_first_cores [1, 1] {0, 1} 1 (some [1, 1, 0]) none).sp_avail =
      some [0, 1] ∧
    (1 : ℕ) < 2 ∧
    (pick_first_cores [2, 2] {0, 1} 0 (some [1, 0])
      (some {0})).sp_avail = some [1] ∧
    (pick_first_cores [2, 2] {0, 1} 0 (some [1, 0])
      (some {0})).core_out.getD ∅ = {2} :=
  ⟨by decide, by decide, by decide, by decide⟩

/-- C7 (amended): under FIRST_CORES the planner walks the index range of
the candidate nodes in ascending order and, on each selected node,
reserves exactly the node's first `core_cnt[i]` cores (a node is selected
only when those leading cores are all free — not from the lowest available
core index — and nodes whose leading cores are not all free are skipped);
the walk stops at a zero `core_cnt` entry, and `node_cnt` plays no role at
all.  On success the i-th selected node's first `core_cnt[i]` cores are
all in the returned core bitmap, every entry before the terminating zero
was satisfied, and every selected node came from `avail_bitmap`; an
unsatisfied entry yields no selection (`NULL`). -/
theorem c7_first_cores_amended :
    (∀ (cores : List Nat) (avail : Finset ℕ) (nc nc' : ℕ)
        (cc : Option (List ℕ)) (cb : Option (Finset ℕ)),
      pick_first_cores cores avail nc cc cb =
        pick_first_cores cores avail nc' cc cb) ∧
    (∀ (cores : List Nat) (avail : Finset ℕ) (nc : ℕ) (cc : List ℕ)
        (cb : Option (Finset ℕ)) (s : List ℕ),
      (pick_first_cores cores avail nc (some cc) cb).sp_avail = some s →
        cc.getD s.length 0 = 0 ∧
        (∀ j, j < s.length → ∀ k, k < cc.getD j 0 →
          cr_get_coremap_offset cores (s.getD j 0) + k ∈
            (pick_first_cores cores avail nc (some cc) cb).core_out.getD ∅) ∧
        (∀ i ∈ s, i ∈ avail)) := by
  constructor
  · intro cores avail nc nc' cc cb
    rfl
  · intro cores avail nc cc cb s hs
    simp only [pick_first_cores] at hs ⊢
    by_cases h0 : cc.getD 0 0 = 0
    · rw [if_pos h0] at hs
      exact absurd hs (by simp)
    · rw [if_neg h0] at hs ⊢
      rcases pick_first_cores_go_spec cores cc avail
        (if avail = ∅ then [] else range_incl (bit_ffs avail) (bit_fls avail))
        0 avail (all_cores cores \ spec_core_filter cores avail cb) ∅ []
        (tmp_subset_avail_cores cores avail cb) h0 with
        ⟨ex, he1, he2, _, he4, he5⟩
      by_cases hnz : cc.getD (pick_first_cores_go cores cc
          (if avail = ∅ then []
           else range_incl (bit_ffs avail) (bit_fls avail)) 0 avail
          (all_cores cores \ spec_core_filter cores avail cb) ∅ []).1 0 ≠ 0
      · rw [if_pos hnz] at hs
        exact absurd hs (by simp)
      · rw [if_neg hnz] at hs ⊢
        have hse : ex = s := by
          have := congrArg (fun o => o.getD []) hs
          simpa [he1] using this
        subst hse
        push_neg at hnz
        have hlen : (pick_first_cores_go cores cc
            (if avail = ∅ then []
             else range_incl (bit_ffs avail) (bit_fls avail)) 0 avail
            (all_cores cores \ spec_core_filter cores avail cb) ∅ []).1 =
            ex.length := by
          rw [he2]
          omega
        refine ⟨?_, ?_, he5⟩
        · rw [hlen] at hnz
          exact hnz
        · intro j hj k hk
          have := he4 j hj k (by simpa using hk)
          simpa using this

/-- Witness for C7 (amended) at a successful two-node FIRST_CORES pick. -/
theorem c7_first_cores_amended_witness :
    (pick_first_cores [2, 2] {0, 1} 0 (some [1, 2, 0]) none).sp_avail =
      some [0, 1] ∧
    cr_get_coremap_offset [2, 2] ([0, 1].getD 1 0) + 1 ∈
      (pick_first_cores [2, 2] {0, 1} 0 (some [1, 2, 0])
        none).core_out.getD ∅ ∧
    1 ∈ ({0, 1} : Finset ℕ) :=
  ⟨by decide,
    (c7_first_cores_amended.2 [2, 2] {0, 1} 0 [1, 2, 0] none [0, 1]
      (by decide)).2.1 1 (by decide) 1 (by decide),
    (c7_first_cores_amended.2 [2, 2] {0, 1} 0 [1, 2, 0] none [0, 1]
      (by decide)).2.2 1 (by decide)⟩

lemma resv_aggr_take_exact (ccn cpn : ℕ) :
    ∀ (l : List ℕ) (exc core : Finset ℕ) (rem cin : ℕ),
      l.Nodup → 1 ≤ rem → cin < cpn →
      cpn - cin ≤ (l.filter (fun p => p ∉ exc)).length →
      (resv_aggr_take ccn true cpn l exc core rem cin).2.2.2 =
        min cpn (cin + rem) ∧
      (resv_aggr_take ccn true cpn l exc core rem cin).2.2.1 =
        (cin + rem) - min cpn (cin + rem) := by
  intro l
  induction l with
  | nil =>
    intro exc core rem cin _ hrem hcin hfl
    simp only [List.filter_nil, List.length_nil] at hfl
    omega
  | cons pos rest ih =>
    intro exc core rem cin hnd hrem hcin hfl
    have hnd2 := List.nodup_cons.mp hnd
    simp only [resv_aggr_take]
    by_cases hfree : pos ∉ exc
    · rw [if_pos hfree, if_pos hfree, if_pos hfree, if_pos hfree]
      by_cases hr0 : rem - 1 = 0
      · rw [if_pos hr0]
        constructor
        · simp only []
          omega
        · simp only []
          omega
      · rw [if_neg hr0]
        by_cases hcpn : cin + 1 ≥ cpn
        · rw [if_pos ⟨trivial, hcpn⟩]
          constructor
          · simp only []
            omega
          · simp only []
            omega
        · rw [if_neg (fun hc => hcpn hc.2),
            if_neg (fun hc => hc.1 trivial)]
          have hflt : (List.filter (fun p => p ∉ exc) (pos :: rest)).length =
              1 + (List.filter (fun p => p ∉ exc) rest).length := by
            rw [List.filter_cons_of_pos (by simpa using hfree)]
            simp [Nat.add_comm]
          have hfeq : (rest.filter (fun p => p ∉ insert pos exc)).length =
              (rest.filter (fun p => p ∉ exc)).length := by
            have : rest.filter (fun p => decide (p ∉ insert pos exc)) =
                rest.filter (fun p => decide (p ∉ exc)) := by
              apply List.filter_congr
              intro x hx
              have hne : x ≠ pos := fun he => hnd2.1 (he ▸ hx)
              simp [Finset.mem_insert, hne]
            simpa using congrArg List.length this
          rcases ih (insert pos exc) (insert pos core) (rem - 1) (cin + 1)
            hnd2.2 (by omega) (by omega) (by omega) with ⟨ha, hb⟩
          have heq : cin + 1 + (rem - 1) = cin + rem := by omega
          rw [heq] at ha hb
          exact ⟨ha, hb⟩
    · rw [if_neg hfree, if_neg hfree, if_neg hfree, if_neg hfree]
      rw [if_neg (by omega : ¬ rem = 0)]
      rw [if_neg (fun hc : _ ∧ cin ≥ cpn => by omega)]
      rw [if_neg (fun hc => hc.1 trivial)]
      have hflt : (List.filter (fun p => p ∉ exc) (pos :: rest)).length =
          (List.filter (fun p => p ∉ exc) rest).length := by
        rw [List.filter_cons_of_neg (by simpa using hfree)]
      exact ih exc core rem cin hnd2.2 hrem hcin (by omega)

lemma resv_aggr_take_card (ccn cpn : ℕ) (aggr : Bool) :
    ∀ (l : List ℕ) (exc core : Finset ℕ) (rem cin : ℕ),
      1 ≤ rem →
      (∀ x ∈ core, x ∈ exc) →
      (resv_aggr_take ccn aggr cpn l exc core rem cin).2.1.card +
        (resv_aggr_take ccn aggr cpn l exc core rem cin).2.2.1 =
        core.card + rem ∧
      (∀ x ∈ (resv_aggr_take ccn aggr cpn l exc core rem cin).2.1,
        x ∈ (resv_aggr_take ccn aggr cpn l exc core rem cin).1) := by
  intro l
  induction l with
  | nil =>
    intro exc core rem cin _ hsub
    exact ⟨rfl, hsub⟩
  | cons pos rest ih =>
    intro exc core rem cin hrem hsub
    simp only [resv_aggr_take]
    by_cases hfree : pos ∉ exc
    · rw [if_pos hfree, if_pos hfree, if_pos hfree, if_pos hfree]
      have hpc : pos ∉ core := fun hc => hfree (hsub pos hc)
      have hcard : (insert pos core).card = core.card + 1 :=
        Finset.card_insert_of_not_mem hpc
      have hsub1 : ∀ x ∈ insert pos core, x ∈ insert pos exc := by
        intro x hx
        rcases Finset.mem_insert.mp hx with rfl | hx2
        · exact Finset.mem_insert_self x _
        · exact Finset.mem_insert_of_mem (hsub x hx2)
      by_cases hr0 : rem - 1 = 0
      · rw [if_pos hr0]
        refine ⟨?_, hsub1⟩
        simp only []
        omega
      · rw [if_neg hr0]
        by_cases hstop : aggr = true ∧ cin + 1 ≥ cpn
        · rw [if_pos hstop]
          refine ⟨?_, hsub1⟩
          simp only []
          omega
        · rw [if_neg hstop]
          by_cases hstop2 : ¬ aggr = true ∧ cin + 1 ≥ ccn
          · rw [if_pos hstop2]
            refine ⟨?_, hsub1⟩
            simp only []
            omega
          · rw [if_neg hstop2]
            rcases ih (insert pos exc) (insert pos core) (rem - 1) (cin + 1)
              (by omega) hsub1 with ⟨ha, hb⟩
            refine ⟨?_, hb⟩
            rw [ha, hcard]
            omega
    · rw [if_neg hfree, if_neg hfree, if_neg hfree, if_neg hfree]
      rw [if_neg (by omega : ¬ rem = 0)]
      by_cases hstop : aggr = true ∧ cin ≥ cpn
      · rw [if_pos hstop]
        exact ⟨rfl, hsub⟩
      · rw [if_neg hstop]
        by_cases hstop2 : ¬ aggr = true ∧ cin ≥ ccn
        · rw [if_pos hstop2]
          exact ⟨rfl, hsub⟩
        · rw [if_neg hstop2]
          exact ih exc core rem cin hrem hsub

lemma resv_aggr_sweep_card (cores : List Nat) (cc : List ℕ) (aggr : Bool)
    (cpn : ℕ) :
    ∀ (nodes : List ℕ) (n : ℕ) (exc core sp : Finset ℕ) (rem : ℕ),
      (∀ x ∈ core, x ∈ exc) →
      (resv_aggr_sweep cores cc aggr cpn nodes n exc core sp rem).2.1.card +
        (resv_aggr_sweep cores cc aggr cpn nodes n exc core sp
          rem).2.2.2.1 = core.card + rem ∧
      (∀ x ∈ (resv_aggr_sweep cores cc aggr cpn nodes n exc core sp
          rem).2.1,
        x ∈ (resv_aggr_sweep cores cc aggr cpn nodes n exc core sp
          rem).1) := by
  intro nodes
  induction nodes with
  | nil =>
    intro n exc core sp rem hsub
    exact ⟨rfl, hsub⟩
  | cons inx rest ih =>
    intro n exc core sp rem hsub
    simp only [resv_aggr_sweep]
    by_cases hr0 : rem = 0
    · rw [if_pos hr0]
      exact ⟨rfl, hsub⟩
    · rw [if_neg hr0]
      by_cases hnc : cores.getD inx 0 < cpn
      · rw [if_pos hnc]
        exact ih n exc core sp rem hsub
      · rw [if_neg hnc]
        by_cases hav : ((node_core_positions cores inx).filter
            (fun p => p ∉ exc)).length < cpn
        · rw [if_pos hav]
          exact ih n exc core sp rem hsub
        · rw [if_neg hav]
          rcases resv_aggr_take_card (cc.getD n 0) cpn aggr
            (node_core_positions cores inx) exc core rem 0 (by omega) hsub
            with ⟨ha, hb⟩
          rcases ih (n + 1)
            (resv_aggr_take (cc.getD n 0) aggr cpn
              (node_core_positions cores inx) exc core rem 0).1
            (resv_aggr_take (cc.getD n 0) aggr cpn
              (node_core_positions cores inx) exc core rem 0).2.1
            (insert inx sp)
            (resv_aggr_take (cc.getD n 0) aggr cpn
              (node_core_positions cores inx) exc core rem 0).2.2.1 hb
            with ⟨hc, hd⟩
          refine ⟨?_, hd⟩
          rw [hc]
          omega

lemma resv_aggr_second_card (cores : List Nat) :
    ∀ (fuel : ℕ) (exc core sp : Finset ℕ) (rem : ℕ) (s : Finset ℕ),
      (∀ x ∈ core, x ∈ exc) →
      (resv_aggr_second cores fuel exc core sp rem).1 = some s →
      (resv_aggr_second cores fuel exc core sp rem).2.1.card =
        core.card + rem := by
  intro fuel
  induction fuel with
  | zero =>
    intro exc core sp rem s _ hs
    exact absurd hs (by simp [resv_aggr_second])
  | succ m ih =>
    intro exc core sp rem s hsub hs
    simp only [resv_aggr_second] at hs ⊢
    rcases resv_aggr_sweep_card cores [] true 1 (finset_asc_list sp) 0 exc
      core sp rem hsub with ⟨ha, hb⟩
    by_cases h1 : (resv_aggr_sweep cores [] true 1 (finset_asc_list sp) 0 exc
        core sp rem).2.2.2.1 = 0
    · rw [if_pos h1] at hs ⊢
      simp only []
      omega
    · rw [if_neg h1] at hs ⊢
      by_cases h2 : (resv_aggr_sweep cores [] true 1 (finset_asc_list sp) 0
          exc core sp rem).2.2.2.1 = rem
      · rw [if_pos h2] at hs
        exact absurd hs (by simp)
      · rw [if_neg h2] at hs ⊢
        rw [ih _ _ _ _ s hb hs]
        omega

lemma resv_aggr_second_none_iff (cores : List Nat) :
    ∀ (fuel : ℕ) (exc core sp : Finset ℕ) (rem : ℕ),
      rem ≠ 0 →
      ((resv_aggr_second cores fuel exc core sp rem).1 = none ↔
        (resv_aggr_second cores fuel exc core sp rem).2.2 ≠ 0) := by
  intro fuel
  induction fuel with
  | zero =>
    intro exc core sp rem hrem
    simp [resv_aggr_second, hrem]
  | succ m ih =>
    intro exc core sp rem hrem
    simp only [resv_aggr_second]
    by_cases h1 : (resv_aggr_sweep cores [] true 1 (finset_asc_list sp) 0 exc
        core sp rem).2.2.2.1 = 0
    · rw [if_pos h1]
      simp
    · rw [if_neg h1]
      by_cases h2 : (resv_aggr_sweep cores [] true 1 (finset_asc_list sp) 0
          exc core sp rem).2.2.2.1 = rem
      · rw [if_pos h2]
        simp [h1]
      · rw [if_neg h2]
        exact ih _ _ _ _ h1

/-- C3 (counterexample): with 4 nodes of 4 cores, `core_cnt[0] = 10` and
`node_cnt = 4`, the aggregate per-node minimum is
`core_cnt[0] / MAX(node_cnt, 1) = 10 / 4 = 2`, not `ceil(10/4) = 3`: the
final selection reserves [3, 3, 2, 2] cores per node (extras going to the
second sweep over the lowest nodes), so node 2 receives only 2 cores where
the claimed ceiling minimum would give it 3 in the first sweep. -/
theorem c3_aggr_cex :
    resv_cores_per_node_aggr 10 4 = 2 ∧
    (10 + 4 - 1) / 4 = 3 ∧
    (resv_test_aggr_pick [4, 4, 4, 4] {0, 1, 2, 3} ∅ 10 4).1.getD ∅ =
      ({0, 1, 2, 3} : Finset ℕ) ∧
    bit_set_count_range
      ((resv_test_aggr_pick [4, 4, 4, 4] {0, 1, 2, 3} ∅ 10 4).2.1) 8 12 =
      2 ∧
    (2 : ℕ) < 3 :=
  ⟨by decide, by decide, by decide, by decide, by decide⟩

/-- C3 (amended): in aggregate mode the per-node minimum of the first
sweep is the FLOOR `core_cnt[0] / MAX(node_cnt, 1)` (the first conjunct
pins it between `nc * m ≤ cc0 < nc * (m + 1)`); each node the sweep
selects receives exactly `min(minimum, remaining)` cores; if cores remain
owed the second sweeps (per-node minimum 1) run, and the request returns
no selection exactly when a residual survives them; on success exactly
`core_cnt[0]` cores are newly reserved. -/
theorem c3_aggr_amended :
    (∀ cc0 nc : ℕ, 1 ≤ nc →
      nc * resv_cores_per_node_aggr cc0 nc ≤ cc0 ∧
      cc0 < nc * (resv_cores_per_node_aggr cc0 nc + 1)) ∧
    (∀ (cores : List Nat) (inx : ℕ) (exc core : Finset ℕ)
        (rem cc0 nc : ℕ),
      1 ≤ rem → 1 ≤ resv_cores_per_node_aggr cc0 nc →
      resv_cores_per_node_aggr cc0 nc ≤
        ((node_core_positions cores inx).filter (fun p => p ∉ exc)).length →
      (resv_aggr_take 0 true (resv_cores_per_node_aggr cc0 nc)
        (node_core_positions cores inx) exc core rem 0).2.2.2 =
        min (resv_cores_per_node_aggr cc0 nc) rem ∧
      (resv_aggr_take 0 true (resv_cores_per_node_aggr cc0 nc)
        (node_core_positions cores inx) exc core rem 0).2.2.1 =
        rem - min (resv_cores_per_node_aggr cc0 nc) rem) ∧
    (∀ (cores : List Nat) (avail : Finset ℕ) (exc : Finset ℕ)
        (cc0 nc : ℕ),
      ((resv_test_aggr_pick cores avail exc cc0 nc).1 = none ↔
        (resv_test_aggr_pick cores avail exc cc0 nc).2.2 ≠ 0)) ∧
    (∀ (cores : List Nat) (avail : Finset ℕ) (exc : Finset ℕ)
        (cc0 nc : ℕ) (s : Finset ℕ),
      (resv_test_aggr_pick cores avail exc cc0 nc).1 = some s →
      (resv_test_aggr_pick cores avail exc cc0 nc).2.1.card = cc0) := by
  refine ⟨?_, ?_, ?_, ?_⟩
  · intro cc0 nc hnc
    have hmax : max nc 1 = nc := Nat.max_eq_left hnc
    have hd := Nat.div_add_mod cc0 nc
    have hm : cc0 % nc < nc := Nat.mod_lt cc0 (by omega)
    unfold resv_cores_per_node_aggr
    rw [hmax, Nat.mul_succ]
    omega
  · intro cores inx exc core rem cc0 nc hrem hcpn hfl
    have hnd : (node_core_positions cores inx).Nodup := by
      unfold node_core_positions
      exact (List.nodup_range _).map
        (fun a b hab => by omega)
    rcases resv_aggr_take_exact 0 (resv_cores_per_node_aggr cc0 nc)
      (node_core_positions cores inx) exc core rem 0 hnd hrem (by omega)
      (by omega) with ⟨ha, hb⟩
    rw [ha, hb]
    constructor
    · simp
    · simp
  · intro cores avail exc cc0 nc
    simp only [resv_test_aggr_pick]
    by_cases h1 : (resv_aggr_sweep cores [] true
        (resv_cores_per_node_aggr cc0 nc) (finset_asc_list avail) 0 exc ∅ ∅
        cc0).2.2.2.1 = 0
    · rw [if_pos h1]
      simp
    · rw [if_neg h1]
      exact resv_aggr_second_none_iff cores _ _ _ _ _ h1
  · intro cores avail exc cc0 nc s hs
    simp only [resv_test_aggr_pick] at hs ⊢
    have hsub : ∀ x ∈ (∅ : Finset ℕ), x ∈ exc := by
      intro x hx
      exact absurd hx (Finset.not_mem_empty x)
    rcases resv_aggr_sweep_card cores [] true
      (resv_cores_per_node_aggr cc0 nc) (finset_asc_list avail) 0 exc ∅ ∅
      cc0 hsub with ⟨ha, hb⟩
    by_cases h1 : (resv_aggr_sweep cores [] true
        (resv_cores_per_node_aggr cc0 nc) (finset_asc_list avail) 0 exc ∅ ∅
        cc0).2.2.2.1 = 0
    · rw [if_pos h1] at hs ⊢
      simp only []
      rw [Finset.card_empty] at ha
      omega
    · rw [if_neg h1] at hs ⊢
      have := resv_aggr_second_card cores _ _ _ _ _ s hb hs
      rw [Finset.card_empty] at ha
      simp only []
      rw [this]
      omega

/-- Witness for C3 (amended) at the 4x4-node, 10-core aggregate request. -/
theorem c3_aggr_amended_witness :
    (1 : ℕ) ≤ 4 ∧
    (resv_aggr_take 0 true (resv_cores_per_node_aggr 10 4)
      (node_core_positions [4, 4, 4, 4] 0) ∅ ∅ 10 0).2.2.2 =
      min (resv_cores_per_node_aggr 10 4) 10 ∧
    (resv_test_aggr_pick [4, 4, 4, 4] {0, 1, 2, 3} ∅ 10 4).2.1.card = 10 :=
  ⟨by decide,
    ((c3_aggr_amended.2.1) [4, 4, 4, 4] 0 ∅ ∅ 10 10 4 (by decide) (by decide)
      (by decide)).1,
    (c3_aggr_amended.2.2.2) [4, 4, 4, 4] {0, 1, 2, 3} ∅ 10 4
      ((resv_test_aggr_pick [4, 4, 4, 4] {0, 1, 2, 3} ∅ 10 4).1.getD ∅)
      (by decide)⟩

/-- Witness for C1 (amended) at the concrete dangling partition. -/
theorem c1_repack_amended_witness :
    build_row_bitmaps_dangles [11] pack_dangling_rows = true ∧
    build_row_bitmaps [11] pack_dangling_rows none =
      pack_dangling_rows.map (rebuild_row_bitmap [11]) :=
  ⟨by decide,
    (c1_repack_amended [11] pack_dangling_rows none).2 (by decide) (by decide)
      (by decide)⟩

end ConsRes
